import Mathlib

/-!
A verification development for the dndice dice-expression interpreter.

The Python source is embedded shallowly:

* Python numbers (`int`/`float`) are modelled as rationals `ℚ`; the code's
  `isinstance(x, int)` checks are modelled as `x.den = 1`.
* The random source (`random.randint` / `random.choice`) is modelled as an
  explicit `RNG` structure indexed by a draw counter that is threaded through
  evaluation, so tests can substitute deterministic sources.
* Exceptions are modelled with `Except`; loops whose termination depends on
  the random source (`reroll_unconditional`) are modelled with explicit fuel,
  returning `Option` with `none` for exhausted fuel.
-/

namespace Dndice

/-- Evaluation-time errors: `ArgumentTypeError`, `ArgumentValueError`, and
the builtin `ZeroDivisionError`, all of which surface as `EvaluationError`. -/
inductive EErr : Type where
  | argType
  | argValue
  | zeroDivision
deriving DecidableEq

/-- `list.sort()` on numbers (ascending).  Python's sort is a stable sort;
on a linear order any sorting algorithm produces the same list, so we use
insertion sort. -/
def sortList (l : List ℚ) : List ℚ := l.insertionSort (· ≤ ·)

/-- A runtime value: a number, an explicit side tuple, or a `Roll`.
A `Roll` (operators.py, class Roll) carries the active sorted `rolls`,
the die that produced them (`sides`: an int, a tuple, or - for nested
rolls like `2d(1d4)` - another Roll, hence `die : Value`), and the
`discards` list. -/
inductive Value : Type where
  | num (q : ℚ)
  | tup (l : List ℚ)
  | roll (rolls : List ℚ) (die : Value) (discards : List ℚ)
deriving DecidableEq

/-- The `Roll` class of operators.py, as a structure (the `Value.roll`
constructor flattens it; `toValue` converts back). -/
structure RollS : Type where
  rolls : List ℚ
  die : Value
  discards : List ℚ
deriving DecidableEq

def RollS.toValue (r : RollS) : Value := .roll r.rolls r.die r.discards

def Value.toRoll : Value → Option RollS
  | .roll rolls die discards => some ⟨rolls, die, discards⟩
  | _ => none

/-- `Roll.__init__(rolls, die)`: sorting is enabled, so the `rolls` setter
sorts the list; `discards` starts empty. -/
def rollInit (rolls : List ℚ) (die : Value) : RollS :=
  { rolls := sortList rolls, die := die, discards := [] }

/-- `Roll.copy()`: a deep copy.  In the pure model this is the identity. -/
def RollS.copy (r : RollS) : RollS := r

/-- A Python indexing object as used by `Roll.discard`/`Roll.replace`:
an int or a step-1 slice. -/
inductive PyIndex : Type where
  | int (i : ℤ)
  | slice (start stop : Option ℤ)

/-- One given bound of `slice.indices(len)` for step 1: clamp a possibly
negative index into `[0, len]`. -/
def sliceClamp (len : ℕ) (s : ℤ) : ℕ :=
  if s < 0 then (s + len).toNat else min s.toNat len

/-- The start bound of `slice.indices(len)` for step 1 (default 0). -/
def sliceStart (len : ℕ) : Option ℤ → ℕ
  | none => 0
  | some s => sliceClamp len s

/-- The stop bound of `slice.indices(len)` for step 1 (default `len`). -/
def sliceStop (len : ℕ) : Option ℤ → ℕ
  | none => len
  | some s => sliceClamp len s

/-- Normalize a Python int index against a list of length `len`:
negative indices count from the end; `none` means `IndexError`. -/
def normIndex (len : ℕ) (i : ℤ) : Option ℕ :=
  let i' := if i < 0 then i + len else i
  if 0 ≤ i' ∧ i' < len then some i'.toNat else none

/-- `Roll.discard(index)`: move the selected rolls to the discard list.
An `IndexError` is rethrown as `ArgumentValueError`. -/
def RollS.discard (r : RollS) (idx : PyIndex) : Except EErr RollS :=
  match idx with
  | .int i =>
    match normIndex r.rolls.length i with
    | none => .error .argValue
    | some j =>
      .ok { r with rolls := r.rolls.eraseIdx j,
                   discards := r.discards ++ [r.rolls.getD j 0] }
  | .slice start stop =>
    let a := sliceStart r.rolls.length start
    let b := sliceStop r.rolls.length stop
    let selected := (r.rolls.drop a).take (b - a)
    .ok { r with rolls := r.rolls.take a ++ r.rolls.drop (max a b),
                 discards := r.discards ++ selected }

/-- `Roll.replace(index, new)` for an int index: discard the old value and
write the new one in place.  `__setitem__` re-sorts unless sorting is
disabled (the `disableSorting` flag). -/
def RollS.replace (r : RollS) (disableSorting : Bool) (i : ℤ) (new : ℚ) :
    Except EErr RollS :=
  match normIndex r.rolls.length i with
  | none => .error .argValue
  | some j =>
    let rolls' := r.rolls.set j new
    .ok { r with rolls := if disableSorting then rolls' else sortList rolls',
                 discards := r.discards ++ [r.rolls.getD j 0] }

/-- `threshold_lower(roll, threshold)`: 1 for each active roll `≥ threshold`
else 0; all original actives join the discards (`@check_simple_types`
requires an int threshold, checked by the caller). -/
def threshold_lower (roll : RollS) (threshold : ℤ) : RollS :=
  let modified := rollInit (roll.rolls.map fun v => if v ≥ (threshold : ℚ) then 1 else 0) roll.die
  { modified with discards := roll.discards ++ roll.rolls }

/-- `threshold_upper(roll, threshold)`: 1 for each active roll `≤ threshold`
else 0; all original actives join the discards. -/
def threshold_upper (roll : RollS) (threshold : ℤ) : RollS :=
  let modified := rollInit (roll.rolls.map fun v => if v ≤ (threshold : ℚ) then 1 else 0) roll.die
  { modified with discards := roll.discards ++ roll.rolls }

/-- `take_low(roll, number)`: keep the lowest `number` rolls, discarding the
top `len - number` via `discard(slice(-n, None))`. -/
def take_low (roll : RollS) (number : ℤ) : Except EErr RollS :=
  let copy := roll.copy
  if (copy.rolls.length : ℤ) > number then
    let n : ℤ := copy.rolls.length - number
    copy.discard (.slice (some (-n)) none)
  else .ok copy

/-- `take_high(roll, number)`: keep the highest `number` rolls, discarding
the bottom `len - number` via `discard(slice(None, n))`. -/
def take_high (roll : RollS) (number : ℤ) : Except EErr RollS :=
  let copy := roll.copy
  if (copy.rolls.length : ℤ) > number then
    let n : ℤ := copy.rolls.length - number
    copy.discard (.slice none (some n))
  else .ok copy

/-- The injected random source: `randint n lo hi` is the `n`-th draw of
`random.randint(lo, hi)` and `choice n l` the `n`-th `random.choice(l)`.
The draw index is threaded through evaluation as a counter. -/
structure RNG : Type where
  randint : ℕ → ℤ → ℤ → ℤ
  choice : ℕ → List ℚ → ℚ

/-- `single_die(sides)`: an int rolls `randint(1, sides)` (a `ValueError`
if `sides < 1`); a tuple picks one of its values (`IndexError` if empty);
a Roll uses the sum of its active values as the side count; anything else
(a non-integer number) is an `ArgumentTypeError`. -/
def single_die (rng : RNG) (ctr : ℕ) (sides : Value) : Except EErr (ℚ × ℕ) :=
  match sides with
  | .num q =>
    if q.den = 1 then
      if q.num < 1 then .error .argValue
      else .ok ((rng.randint ctr 1 q.num : ℚ), ctr + 1)
    else .error .argType
  | .tup l =>
    match l with
    | [] => .error .argValue
    | _ => .ok (rng.choice ctr l, ctr + 1)
  | .roll rolls _ _ =>
    let s := rolls.sum
    if s.den = 1 then
      if s.num < 1 then .error .argValue
      else .ok ((rng.randint ctr 1 s.num : ℚ), ctr + 1)
    else .error .argValue

/-- `[single_die(sides) for _ in range(count)]`, threading the draw
counter. -/
def dice_rolls (rng : RNG) (sides : Value) : ℕ → ℕ → Except EErr (List ℚ × ℕ)
  | 0, ctr => .ok ([], ctr)
  | n + 1, ctr => do
    let (v, ctr') ← single_die rng ctr sides
    let (rest, ctr'') ← dice_rolls rng sides n ctr'
    .ok (v :: rest, ctr'')

/-- `range(number)` for a Python number: a `TypeError` unless it is an int;
a negative int gives the empty range. -/
def pyRange (number : ℚ) : Except EErr ℕ :=
  if number.den = 1 then .ok number.num.toNat else .error .argType

/-- `roll_basic(number, sides)`: roll `number` dice and collect them in a
fresh (sorted) `Roll`. -/
def roll_basic (rng : RNG) (ctr : ℕ) (number : ℚ) (sides : Value) :
    Except EErr (RollS × ℕ) := do
  let n ← pyRange number
  let (vs, ctr') ← dice_rolls rng sides n ctr
  .ok (rollInit vs sides, ctr')

/-- `roll_critical(number, sides)`: roll `2 * number` dice. -/
def roll_critical (rng : RNG) (ctr : ℕ) (number : ℚ) (sides : Value) :
    Except EErr (RollS × ℕ) := do
  let n ← pyRange (2 * number)
  let (vs, ctr') ← dice_rolls rng sides n ctr
  .ok (rollInit vs sides, ctr')

/-- `max` of a nonempty list. -/
def listMax : List ℚ → Except EErr ℚ
  | [] => .error .argValue
  | h :: t => .ok (t.foldl max h)

/-- `min` of a nonempty list. -/
def listMin : List ℚ → Except EErr ℚ
  | [] => .error .argValue
  | h :: t => .ok (t.foldl min h)

/-- `roll_max(number, sides)`: every die shows its maximum possible value
(the side count for a numeric die, the largest side of a tuple, the
largest previously-rolled value for a Roll). -/
def roll_max (rng : RNG) (ctr : ℕ) (number : ℚ) (sides : Value) :
    Except EErr (RollS × ℕ) := do
  let _ := rng
  let v ← match sides with
    | .tup l => listMax l
    | .roll rolls _ _ => listMax rolls
    | .num q => .ok q
  let n ← pyRange number
  .ok (rollInit (List.replicate n v) sides, ctr)

/-- `roll_average(number, sides)`: every die shows the die's average:
`(sides + 1) / 2` for an integer die, the mean of the sides for a tuple or
Roll (an int check applies to a bare number, per `isinstance(sides, int)`). -/
def roll_average (rng : RNG) (ctr : ℕ) (number : ℚ) (sides : Value) :
    Except EErr (RollS × ℕ) := do
  let _ := rng
  let v ← match sides with
    | .tup l =>
      if l.length = 0 then Except.error EErr.zeroDivision
      else Except.ok (l.sum / l.length)
    | .roll rolls _ _ =>
      if rolls.length = 0 then Except.error EErr.zeroDivision
      else Except.ok (rolls.sum / rolls.length)
    | .num q => if q.den = 1 then Except.ok ((q + 1) / 2) else Except.error EErr.argType
  let n ← pyRange number
  .ok (rollInit (List.replicate n v) sides, ctr)

/-- The single scan of `reroll_once` (inside `sorting_disabled`): visit
each position once; where `comp(value, target)` holds, draw a fresh die
and replace in place, recording the old value as a discard.  Returns the
new (unsorted) actives, the appended discards, and the counter. -/
def reroll_once_scan (rng : RNG) (comp : ℚ → ℚ → Bool) (target : ℚ) (die : Value) :
    List ℚ → ℕ → Except EErr (List ℚ × List ℚ × ℕ)
  | [], ctr => .ok ([], [], ctr)
  | v :: rest, ctr =>
    if comp v target then do
      let (v', ctr') ← single_die rng ctr die
      let (rest', ds, ctr'') ← reroll_once_scan rng comp target die rest ctr'
      .ok (v' :: rest', v :: ds, ctr'')
    else do
      let (rest', ds, ctr'') ← reroll_once_scan rng comp target die rest ctr
      .ok (v :: rest', ds, ctr'')

/-- `reroll_once(original, target, comp)`: copy, scan once with sorting
disabled, and re-sort on leaving the `sorting_disabled` context. -/
def reroll_once (rng : RNG) (ctr : ℕ) (original : RollS) (target : ℚ)
    (comp : ℚ → ℚ → Bool) : Except EErr (RollS × ℕ) := do
  let modified := original.copy
  let (rolls', ds, ctr') ← reroll_once_scan rng comp target modified.die modified.rolls ctr
  .ok ({ modified with rolls := sortList rolls',
                       discards := modified.discards ++ ds }, ctr')

/-- The inner `while comp(roll[i], target)` loop of `reroll_unconditional`
at one position, with fuel: rerolls until the value stops matching.
Returns the final value, the discards from this position, and the counter;
`none` when the fuel runs out before a stopping value appears. -/
def reroll_pos (rng : RNG) (comp : ℚ → ℚ → Bool) (target : ℚ) (die : Value) :
    ℕ → ℚ → ℕ → Option (Except EErr (ℚ × List ℚ × ℕ))
  | fuel, v, ctr =>
    if comp v target then
      match fuel with
      | 0 => none
      | fuel + 1 =>
        match single_die rng ctr die with
        | .error e => some (.error e)
        | .ok (v', ctr') =>
          (reroll_pos rng comp target die fuel v' ctr').map
            (·.map fun (w, ds, c) => (w, v :: ds, c))
    else some (.ok (v, [], ctr))

/-- The position scan of `reroll_unconditional` (inside
`sorting_disabled`). -/
def reroll_unc_scan (rng : RNG) (comp : ℚ → ℚ → Bool) (target : ℚ) (die : Value)
    (fuel : ℕ) : List ℚ → ℕ → Option (Except EErr (List ℚ × List ℚ × ℕ))
  | [], ctr => some (.ok ([], [], ctr))
  | v :: rest, ctr =>
    match reroll_pos rng comp target die fuel v ctr with
    | none => none
    | some (.error e) => some (.error e)
    | some (.ok (w, ds, ctr')) =>
      match reroll_unc_scan rng comp target die fuel rest ctr' with
      | none => none
      | some (.error e) => some (.error e)
      | some (.ok (rest', ds', ctr'')) => some (.ok (w :: rest', ds ++ ds', ctr''))

/-- `reroll_unconditional(original, target, comp)`: copy, reroll every
matching position until it no longer matches, re-sort on exit. -/
def reroll_unconditional (rng : RNG) (ctr : ℕ) (fuel : ℕ) (original : RollS)
    (target : ℚ) (comp : ℚ → ℚ → Bool) : Option (Except EErr (RollS × ℕ)) :=
  match reroll_unc_scan rng comp target original.copy.die fuel original.copy.rolls ctr with
  | none => none
  | some (.error e) => some (.error e)
  | some (.ok (rolls', ds, ctr')) =>
    some (.ok ({ original.copy with rolls := sortList rolls',
                                    discards := original.copy.discards ++ ds }, ctr'))

/-- `reroll_once_on`: reroll once where a roll equals the target. -/
def reroll_once_on (rng : RNG) (ctr : ℕ) (original : RollS) (target : ℚ) :
    Except EErr (RollS × ℕ) :=
  reroll_once rng ctr original target (fun x y => x = y)

/-- `reroll_once_higher`: reroll once where a roll exceeds the target. -/
def reroll_once_higher (rng : RNG) (ctr : ℕ) (original : RollS) (target : ℚ) :
    Except EErr (RollS × ℕ) :=
  reroll_once rng ctr original target (fun x y => x > y)

/-- `reroll_once_lower`: reroll once where a roll is below the target. -/
def reroll_once_lower (rng : RNG) (ctr : ℕ) (original : RollS) (target : ℚ) :
    Except EErr (RollS × ℕ) :=
  reroll_once rng ctr original target (fun x y => x < y)

/-- `reroll_unconditional_on`. -/
def reroll_unconditional_on (rng : RNG) (ctr : ℕ) (fuel : ℕ) (original : RollS)
    (target : ℚ) : Option (Except EErr (RollS × ℕ)) :=
  reroll_unconditional rng ctr fuel original target (fun x y => x = y)

/-- `try: min(die) except TypeError: 1` - the minimum face used by the
guard of `reroll_unconditional_higher`.  `min` of an int raises
`TypeError` (caught, giving 1); `min` of an empty tuple or Roll raises an
uncaught `ValueError`. -/
def die_min_default1 : Value → Except EErr ℚ
  | .num _ => .ok 1
  | .tup l => listMin l
  | .roll rolls _ _ => listMin rolls

/-- `try: max(die) except TypeError: original.die` - the maximum face used
by the guard of `reroll_unconditional_lower`; for an int die the die
itself. -/
def die_max_or_self : Value → Except EErr ℚ
  | .num q => .ok q
  | .tup l => listMax l
  | .roll rolls _ _ => listMax rolls

/-- `reroll_unconditional_higher(original, target)`: fail fast with
`ArgumentValueError` when `target < min(die)` (which would loop forever),
else reroll values greater than the target until none are. -/
def reroll_unconditional_higher (rng : RNG) (ctr : ℕ) (fuel : ℕ) (original : RollS)
    (target : ℚ) : Option (Except EErr (RollS × ℕ)) :=
  match die_min_default1 original.die with
  | .error e => some (.error e)
  | .ok m =>
    if target < m then some (.error .argValue)
    else reroll_unconditional rng ctr fuel original target (fun x y => x > y)

/-- `reroll_unconditional_lower(original, target)`: fail fast with
`ArgumentValueError` when `target > max(die)`, else reroll values less
than the target until none are. -/
def reroll_unconditional_lower (rng : RNG) (ctr : ℕ) (fuel : ℕ) (original : RollS)
    (target : ℚ) : Option (Except EErr (RollS × ℕ)) :=
  match die_max_or_self original.die with
  | .error e => some (.error e)
  | .ok m =>
    if target > m then some (.error .argValue)
    else reroll_unconditional rng ctr fuel original target (fun x y => x < y)

/-- The scan of `floor_val` (inside `sorting_disabled`): replace each value
below the floor with the floor, discarding the original. -/
def clamp_low_scan (bottom : ℚ) : List ℚ → List ℚ × List ℚ
  | [] => ([], [])
  | v :: rest =>
    let (rs, ds) := clamp_low_scan bottom rest
    if v < bottom then (bottom :: rs, v :: ds) else (v :: rs, ds)

/-- The scan of `ceil_val` (inside `sorting_disabled`): replace each value
above the ceiling with the ceiling, discarding the original. -/
def clamp_high_scan (top : ℚ) : List ℚ → List ℚ × List ℚ
  | [] => ([], [])
  | v :: rest =>
    let (rs, ds) := clamp_high_scan top rest
    if v > top then (top :: rs, v :: ds) else (v :: rs, ds)

/-- `floor_val(original, bottom)`: copy, clamp from below in place, re-sort
on leaving the `sorting_disabled` context. -/
def floor_val (original : RollS) (bottom : ℚ) : RollS :=
  let modified := original.copy
  let (rolls', ds) := clamp_low_scan bottom modified.rolls
  { modified with rolls := sortList rolls', discards := modified.discards ++ ds }

/-- `ceil_val(original, top)`: copy, clamp from above in place, re-sort on
leaving the `sorting_disabled` context. -/
def ceil_val (original : RollS) (top : ℚ) : RollS :=
  let modified := original.copy
  let (rolls', ds) := clamp_high_scan top modified.rolls
  { modified with rolls := sortList rolls', discards := modified.discards ++ ds }

/-- `factorial(number)` (`@check_simple_types` requires an int; negative
input is an `ArgumentValueError`). -/
def factorial (number : ℚ) : Except EErr ℚ :=
  if number.den ≠ 1 then .error .argType
  else if number.num < 0 then .error .argValue
  else .ok (Nat.factorial number.num.toNat)

/-! ## The operator table (operators.py, `OPERATORS`) -/

/-- Which side(s) an operation applies to (the `Side` enum). -/
inductive Side : Type where
  | right
  | left
  | both
  | neither
deriving DecidableEq

/-- `arity & Side.LEFT` as a test. -/
def Side.hasLeft : Side → Bool
  | .left => true
  | .both => true
  | _ => false

/-- `arity & Side.RIGHT` as a test. -/
def Side.hasRight : Side → Bool
  | .right => true
  | .both => true
  | _ => false

/-- The codes of the registered operators, one constructor per entry of the
`OPERATORS` table (the names spell the code: `Sym` for the symbol form and
`W` for the word form of the comparisons, `Unc` for the capital-`R`
unconditional rerolls). -/
inductive OpCode : Type where
  | fact                                           -- '!'
  | d | da | dc | dm                               -- dice
  | h | l | f | c                                  -- keep high/low, floor, ceil
  | rOnce | rUnc                                   -- 'r', 'R'
  | rOnceLtSym | rUncLtSym | rOnceL | rUncL        -- 'r<', 'R<', 'rl', 'Rl'
  | rOnceGtSym | rUncGtSym | rOnceH | rUncH        -- 'r>', 'R>', 'rh', 'Rh'
  | thLow | thUp                                   -- 't', 'T'
  | pow                                            -- '^'
  | m | p                                          -- unary sign codes
  | mul | div | mod | sub | add
  | gtSym | gtW | geSym | geW | ltSym | ltW | leSym | leW
  | eq | orB | andB
deriving DecidableEq

/-- The `code` strings of the operators, as character lists. -/
def codeChars : OpCode → List Char
  | .fact => ['!']
  | .d => ['d']
  | .da => ['d', 'a']
  | .dc => ['d', 'c']
  | .dm => ['d', 'm']
  | .h => ['h']
  | .l => ['l']
  | .f => ['f']
  | .c => ['c']
  | .rOnce => ['r']
  | .rUnc => ['R']
  | .rOnceLtSym => ['r', '<']
  | .rUncLtSym => ['R', '<']
  | .rOnceL => ['r', 'l']
  | .rUncL => ['R', 'l']
  | .rOnceGtSym => ['r', '>']
  | .rUncGtSym => ['R', '>']
  | .rOnceH => ['r', 'h']
  | .rUncH => ['R', 'h']
  | .thLow => ['t']
  | .thUp => ['T']
  | .pow => ['^']
  | .m => ['m']
  | .p => ['p']
  | .mul => ['*']
  | .div => ['/']
  | .mod => ['%']
  | .sub => ['-']
  | .add => ['+']
  | .gtSym => ['>']
  | .gtW => ['g', 't']
  | .geSym => ['>', '=']
  | .geW => ['g', 'e']
  | .ltSym => ['<']
  | .ltW => ['l', 't']
  | .leSym => ['<', '=']
  | .leW => ['l', 'e']
  | .eq => ['=']
  | .orB => ['|']
  | .andB => ['&']

/-- The behavioural flags of one `Operator` instance. -/
structure OperatorInfo : Type where
  precedence : ℕ
  arity : Side
  associativity : Side
  cajole : Side

/-- The flags from the `OPERATORS` table (defaults: `arity=BOTH`,
`associativity=LEFT`, `cajole=BOTH`). -/
def opInfo : OpCode → OperatorInfo
  | .fact => ⟨8, .left, .left, .left⟩
  | .d | .da | .dc | .dm => ⟨7, .both, .left, .left⟩
  | .h | .l | .f | .c => ⟨6, .both, .left, .right⟩
  | .rOnce | .rUnc | .rOnceLtSym | .rUncLtSym | .rOnceL | .rUncL => ⟨6, .both, .left, .right⟩
  | .rOnceGtSym | .rUncGtSym | .rOnceH | .rUncH => ⟨6, .both, .left, .right⟩
  | .thLow | .thUp => ⟨6, .both, .left, .right⟩
  | .pow => ⟨5, .both, .right, .both⟩
  | .m | .p => ⟨4, .right, .left, .right⟩
  | .mul | .div | .mod => ⟨3, .both, .left, .both⟩
  | .sub | .add => ⟨2, .both, .left, .both⟩
  | .gtSym | .gtW | .geSym | .geW | .ltSym | .ltW | .leSym | .leW => ⟨1, .both, .left, .both⟩
  | .eq | .orB | .andB => ⟨1, .both, .left, .both⟩

/-- All codes, in the visual order of the `OPERATORS` dictionary. -/
def allOpCodes : List OpCode :=
  [.fact, .d, .da, .dc, .dm, .h, .l, .f, .c,
   .rOnce, .rUnc, .rOnceLtSym, .rUncLtSym, .rOnceL, .rUncL,
   .rOnceGtSym, .rUncGtSym, .rOnceH, .rUncH, .thLow, .thUp,
   .pow, .m, .p, .mul, .div, .mod, .sub, .add,
   .gtSym, .gtW, .geSym, .geW, .ltSym, .ltW, .leSym, .leW, .eq, .orB, .andB]

/-- Cajoling: a `Roll` or tuple operand collapses to the sum of its active
values. -/
def cajoleValue : Value → Value
  | .roll rolls _ _ => .num rolls.sum
  | .tup l => .num l.sum
  | v => v

/-- Extract a number operand; anything else is a `TypeError`. -/
def asNum : Option Value → Except EErr ℚ
  | some (.num q) => .ok q
  | _ => .error .argType

/-- Extract an int operand (`@check_simple_types` with an `int`
annotation). -/
def asInt : Option Value → Except EErr ℤ
  | some (.num q) => if q.den = 1 then .ok q.num else .error .argType
  | _ => .error .argType

/-- Extract a `Roll` operand; anything else raises (either
`@check_simple_types` or an `AttributeError`, both surfacing as
evaluation errors). -/
def asRoll : Option Value → Except EErr RollS
  | some (.roll rolls die discards) => .ok ⟨rolls, die, discards⟩
  | _ => .error .argType

/-- Python `%` on numbers: the remainder with the divisor's sign,
`x - y * floor(x / y)`. -/
def pyMod (x y : ℚ) : ℚ := x - y * ⌊x / y⌋

/-- Python `**` restricted to integer exponents (`0 ** negative` is a
`ZeroDivisionError`).  The source also accepts fractional exponents,
producing irrational floats that have no rational model; those are out of
scope and mapped to a type error here. -/
def pyPow (x y : ℚ) : Except EErr ℚ :=
  if y.den = 1 then
    if 0 ≤ y.num then .ok (x ^ y.num.toNat)
    else if x = 0 then .error .zeroDivision
    else .ok (x ^ y.num)
  else .error .argType

/-- Python truthiness of a number. -/
def pyTruthy (q : ℚ) : Bool := q ≠ 0

/-- `Operator.__call__` for every operator whose function cannot reroll
unconditionally (no fuel needed): cajoling has already been applied by
`applyOp`. -/
def applyOpE (rng : RNG) (o : OpCode) (left right : Option Value) (ctr : ℕ) :
    Except EErr (Value × ℕ) :=
  match o with
  | .fact => do
    let x ← asNum left
    let v ← factorial x
    .ok (.num v, ctr)
  | .d => do
    let x ← asNum left
    let sides ← match right with
      | some v => Except.ok v
      | none => Except.error EErr.argType
    let (r, ctr') ← roll_basic rng ctr x sides
    .ok (r.toValue, ctr')
  | .da => do
    let x ← asNum left
    let sides ← match right with
      | some v => Except.ok v
      | none => Except.error EErr.argType
    let (r, ctr') ← roll_average rng ctr x sides
    .ok (r.toValue, ctr')
  | .dc => do
    let x ← asNum left
    let sides ← match right with
      | some v => Except.ok v
      | none => Except.error EErr.argType
    let (r, ctr') ← roll_critical rng ctr x sides
    .ok (r.toValue, ctr')
  | .dm => do
    let x ← asNum left
    let sides ← match right with
      | some v => Except.ok v
      | none => Except.error EErr.argType
    let (r, ctr') ← roll_max rng ctr x sides
    .ok (r.toValue, ctr')
  | .h => do
    let rl ← asRoll left
    let k ← asInt right
    let r ← take_high rl k
    .ok (r.toValue, ctr)
  | .l => do
    let rl ← asRoll left
    let k ← asInt right
    let r ← take_low rl k
    .ok (r.toValue, ctr)
  | .f => do
    let rl ← asRoll left
    let y ← asNum right
    .ok ((floor_val rl y).toValue, ctr)
  | .c => do
    let rl ← asRoll left
    let y ← asNum right
    .ok ((ceil_val rl y).toValue, ctr)
  | .rOnce => do
    let rl ← asRoll left
    let y ← asNum right
    let (r, ctr') ← reroll_once_on rng ctr rl y
    .ok (r.toValue, ctr')
  | .rOnceLtSym | .rOnceL => do
    let rl ← asRoll left
    let y ← asNum right
    let (r, ctr') ← reroll_once_lower rng ctr rl y
    .ok (r.toValue, ctr')
  | .rOnceGtSym | .rOnceH => do
    let rl ← asRoll left
    let y ← asNum right
    let (r, ctr') ← reroll_once_higher rng ctr rl y
    .ok (r.toValue, ctr')
  | .thLow => do
    let rl ← asRoll left
    let k ← asInt right
    .ok ((threshold_lower rl k).toValue, ctr)
  | .thUp => do
    let rl ← asRoll left
    let k ← asInt right
    .ok ((threshold_upper rl k).toValue, ctr)
  | .pow => do
    let x ← asNum left
    let y ← asNum right
    let v ← pyPow x y
    .ok (.num v, ctr)
  | .m => do
    let x ← asNum right
    .ok (.num (-x), ctr)
  | .p => do
    let x ← asNum right
    .ok (.num x, ctr)
  | .mul => do
    let x ← asNum left
    let y ← asNum right
    .ok (.num (x * y), ctr)
  | .div => do
    let x ← asNum left
    let y ← asNum right
    if y = 0 then .error .zeroDivision else .ok (.num (x / y), ctr)
  | .mod => do
    let x ← asNum left
    let y ← asNum right
    if y = 0 then .error .zeroDivision else .ok (.num (pyMod x y), ctr)
  | .sub => do
    let x ← asNum left
    let y ← asNum right
    .ok (.num (x - y), ctr)
  | .add => do
    let x ← asNum left
    let y ← asNum right
    .ok (.num (x + y), ctr)
  | .gtSym | .gtW => do
    let x ← asNum left
    let y ← asNum right
    .ok (.num (if x > y then 1 else 0), ctr)
  | .geSym | .geW => do
    let x ← asNum left
    let y ← asNum right
    .ok (.num (if x ≥ y then 1 else 0), ctr)
  | .ltSym | .ltW => do
    let x ← asNum left
    let y ← asNum right
    .ok (.num (if x < y then 1 else 0), ctr)
  | .leSym | .leW => do
    let x ← asNum left
    let y ← asNum right
    .ok (.num (if x ≤ y then 1 else 0), ctr)
  | .eq => do
    let x ← asNum left
    let y ← asNum right
    .ok (.num (if x = y then 1 else 0), ctr)
  | .orB => do
    let x ← asNum left
    let y ← asNum right
    .ok (.num (if pyTruthy x then x else y), ctr)
  | .andB => do
    let x ← asNum left
    let y ← asNum right
    .ok (.num (if pyTruthy x then y else x), ctr)
  | .rUnc | .rUncLtSym | .rUncL | .rUncGtSym | .rUncH =>
    -- handled by `applyOp` (they need fuel)
    .error .argType

/-- Lift a fueled reroll result into an operator result. -/
def liftUnc (res : Option (Except EErr (RollS × ℕ))) :
    Option (Except EErr (Value × ℕ)) :=
  res.map (·.map fun (r, ctr') => (r.toValue, ctr'))

/-- `Operator.__call__`: cajole the operand sides indicated by the table,
then run the operator's function.  The unconditional rerolls thread the
fuel; everything else cannot diverge. -/
def applyOp (rng : RNG) (fuel : ℕ) (o : OpCode) (left right : Option Value)
    (ctr : ℕ) : Option (Except EErr (Value × ℕ)) :=
  let info := opInfo o
  let left := if info.cajole.hasLeft then left.map cajoleValue else left
  let right := if info.cajole.hasRight then right.map cajoleValue else right
  match o with
  | .rUnc =>
    match asRoll left, asNum right with
    | .ok rl, .ok y => liftUnc (reroll_unconditional_on rng ctr fuel rl y)
    | .error e, _ => some (.error e)
    | _, .error e => some (.error e)
  | .rUncLtSym | .rUncL =>
    match asRoll left, asNum right with
    | .ok rl, .ok y => liftUnc (reroll_unconditional_lower rng ctr fuel rl y)
    | .error e, _ => some (.error e)
    | _, .error e => some (.error e)
  | .rUncGtSym | .rUncH =>
    match asRoll left, asNum right with
    | .ok rl, .ok y => liftUnc (reroll_unconditional_higher rng ctr fuel rl y)
    | .error e, _ => some (.error e)
    | _, .error e => some (.error e)
  | _ => some (applyOpE rng o left right ctr)

/-! ## Tokens and the expression tree (tokenizer.py `Token`,
evaltree.py `EvalTreeNode` / `EvalTree`) -/

/-- A token: an integer, an explicit side tuple, an operator, or a bare
parenthesis marker. -/
inductive Token : Type where
  | int (n : ℤ)
  | tup (l : List ℚ)
  | op (o : OpCode)
  | lparen
  | rparen
deriving DecidableEq

/-- A node payload: a concrete value (for leaves) or an operator. -/
inductive Payload : Type where
  | int (n : ℤ)
  | tup (l : List ℚ)
  | op (o : OpCode)
deriving DecidableEq

mutual
/-- `EvalTreeNode`: payload plus optional left/right children. -/
inductive ENode : Type where
  | mk (payload : Payload) (left : ONode) (right : ONode)
/-- `Optional[EvalTreeNode]`. -/
inductive ONode : Type where
  | none
  | some (n : ENode)
end

def ENode.payload : ENode → Payload
  | .mk p _ _ => p

def ENode.left : ENode → ONode
  | .mk _ l _ => l

def ENode.right : ENode → ONode
  | .mk _ _ r => r

/-- A leaf node. -/
def leafNode (p : Payload) : ENode := .mk p .none .none

/-- Parse errors.  The tokenizer's variants carry the character offset;
`construction` stands for the `ParseError` that wraps any error raised
while building a tree from tokens. -/
inductive PErr : Type where
  | unclosedParen (offset : ℕ)
  | unopenedParen (offset : ℕ)
  | unrecognizedChar (offset : ℕ)
  | tokenBroken (offset : ℕ)
  | illegalChar (offset : ℕ)
  | unexpectedEnd (offset : ℕ)
  | invalidOperator (offset : ℕ)
  | badFloat (offset : ℕ)
  | construction
deriving DecidableEq

/-- An element of the shunting-yard operator stack: an operator or the
`'('` sentinel. -/
inductive OpEl : Type where
  | op (o : OpCode)
  | lparen
deriving DecidableEq

/-- `EvalTree.__one_operation`, with the popped operator passed in: build
a node taking its children from the output stack per the operator's arity
(right first), and push it.  Popping an empty stack (or a leftover `'('`
sentinel reaching here) is the `IndexError`/`AttributeError` that the
caller wraps into a `ParseError`. -/
def one_operation (current : OpCode) (values : List ENode) :
    Except PErr (List ENode) :=
  let info := opInfo current
  if info.arity.hasRight then
    match values with
    | [] => .error .construction
    | rv :: rest =>
      if info.arity.hasLeft then
        match rest with
        | [] => .error .construction
        | lv :: rest' => .ok (ENode.mk (.op current) (.some lv) (.some rv) :: rest')
      else .ok (ENode.mk (.op current) .none (.some rv) :: rest)
  else
    if info.arity.hasLeft then
      match values with
      | [] => .error .construction
      | lv :: rest => .ok (ENode.mk (.op current) (.some lv) .none :: rest)
    else .ok (ENode.mk (.op current) .none .none :: values)

/-- The reduction loop run before pushing operator `t`: reduce while the
stack top is an operator that binds at least as tightly (strictly higher
precedence, or equal precedence and left-associative). -/
def reduceWhile (t : OpCode) : List OpEl → List ENode →
    Except PErr (List OpEl × List ENode)
  | [], values => .ok ([], values)
  | .lparen :: rest, values => .ok (.lparen :: rest, values)
  | .op o :: rest, values =>
    if (opInfo o).precedence > (opInfo t).precedence ∨
        ((opInfo o).precedence = (opInfo t).precedence ∧
          (opInfo o).associativity = Side.left) then
      match one_operation o values with
      | .error e => .error e
      | .ok values' => reduceWhile t rest values'
    else .ok (.op o :: rest, values)

/-- The reduction loop run at a `')'` token: reduce until the matching
`'('` sentinel, then discard the sentinel.  An exhausted stack is the
`IndexError` wrapped into a `ParseError`. -/
def reduceToParen : List OpEl → List ENode →
    Except PErr (List OpEl × List ENode)
  | [], _ => .error .construction
  | .lparen :: rest, values => .ok (rest, values)
  | .op o :: rest, values =>
    match one_operation o values with
    | .error e => .error e
    | .ok values' => reduceToParen rest values'

/-- The final drain after all tokens are consumed. -/
def drainOps : List OpEl → List ENode → Except PErr (List ENode)
  | [], values => .ok values
  | .lparen :: _, _ => .error .construction
  | .op o :: rest, values =>
    match one_operation o values with
    | .error e => .error e
    | .ok values' => drainOps rest values'

/-- The token loop of `EvalTree.__from_tokens`: values push leaves, `'('`
pushes a sentinel, `')'` reduces to the sentinel, and an operator reduces
by precedence before pushing itself. -/
def from_tokens_loop : List Token → List OpEl → List ENode →
    Except PErr (List OpEl × List ENode)
  | [], ops, values => .ok (ops, values)
  | t :: rest, ops, values =>
    match t with
    | .int n => from_tokens_loop rest ops (leafNode (.int n) :: values)
    | .tup l => from_tokens_loop rest ops (leafNode (.tup l) :: values)
    | .lparen => from_tokens_loop rest (.lparen :: ops) values
    | .rparen =>
      match reduceToParen ops values with
      | .error e => .error e
      | .ok (ops', values') => from_tokens_loop rest ops' values'
    | .op o =>
      match reduceWhile o ops values with
      | .error e => .error e
      | .ok (ops', values') => from_tokens_loop rest (.op o :: ops') values'

/-- `EvalTree.__from_tokens`: run the shunting-yard loop, drain the
remaining operators, and take the top of the output stack as the root (an
empty stack yields the literal-zero leaf). -/
def from_tokens (ts : List Token) : Except PErr ONode :=
  match from_tokens_loop ts [] [] with
  | .error e => .error e
  | .ok (ops, values) =>
    match drainOps ops values with
    | .error e => .error e
    | .ok values' =>
      match values' with
      | [] => .ok (.some (leafNode (.int 0)))
      | v :: _ => .ok (.some v)

/-! ## Evaluation (evaltree.py `EvalTreeNode.evaluate`,
`EvalTree.evaluate`) -/

mutual
/-- `EvalTreeNode.evaluate`: a leaf's value is its payload; an inner node
applies its operator to the children's values (left child first, `None`
for a missing child).  An operator payload on a leaf, or a concrete
payload on an inner node, can only fail (such trees are never produced by
the parser). -/
def nodeEval (rng : RNG) (fuel : ℕ) : ENode → ℕ → Option (Except EErr (Value × ℕ))
  | .mk payload .none .none, ctr =>
    match payload with
    | .int n => some (.ok (.num n, ctr))
    | .tup l => some (.ok (.tup l, ctr))
    | .op _ => some (.error .argType)
  | .mk payload left right, ctr =>
    match payload with
    | .op o =>
      match childEval rng fuel left ctr with
      | Option.none => Option.none
      | Option.some (.error e) => some (.error e)
      | Option.some (.ok (lv, ctr')) =>
        match childEval rng fuel right ctr' with
        | Option.none => Option.none
        | Option.some (.error e) => some (.error e)
        | Option.some (.ok (rv, ctr'')) => applyOp rng fuel o lv rv ctr''
    | _ => some (.error .argType)

/-- `self.left and self.left.evaluate()`: `None` for a missing child. -/
def childEval (rng : RNG) (fuel : ℕ) : ONode → ℕ →
    Option (Except EErr (Option Value × ℕ))
  | .none, ctr => some (.ok (Option.none, ctr))
  | .some n, ctr =>
    match nodeEval rng fuel n ctr with
    | Option.none => Option.none
    | Option.some (.error e) => some (.error e)
    | Option.some (.ok (v, ctr')) => some (.ok (Option.some v, ctr'))
end

/-- `try: return sum(final) except TypeError: return final`: Rolls and
tuples are iterable and collapse to the sum of their (active) values;
numbers raise `TypeError` in `sum` and are returned unchanged. -/
def sumIfIterable : Value → Value
  | .roll rolls _ _ => .num rolls.sum
  | .tup l => .num l.sum
  | .num q => .num q

/-- `EvalTree.evaluate`: an empty tree evaluates to 0; otherwise evaluate
the root and collapse an iterable result to its sum. -/
def tree_evaluate (rng : RNG) (fuel : ℕ) (root : ONode) (ctr : ℕ) :
    Option (Except EErr Value) :=
  match root with
  | .none => some (.ok (.num 0))
  | .some r =>
    match nodeEval rng fuel r ctr with
    | Option.none => Option.none
    | Option.some (.error e) => some (.error e)
    | Option.some (.ok (v, _)) => some (.ok (sumIfIterable v))

/-! ## Mode transforms (evaltree.py `critify` / `averageify` / `maxify`) -/

mutual
/-- `EvalTree.critify`: rewrite every `d` or `da` payload to `dc`
(pre-order walk over all nodes, in place). -/
def critifyN : ENode → ENode
  | .mk pl l r =>
    .mk (if pl = .op .d ∨ pl = .op .da then .op .dc else pl) (critifyO l) (critifyO r)

def critifyO : ONode → ONode
  | .none => .none
  | .some n => .some (critifyN n)
end

mutual
/-- `EvalTree.averageify`: rewrite every `d` payload to `da`. -/
def averageifyN : ENode → ENode
  | .mk pl l r =>
    .mk (if pl = .op .d then .op .da else pl) (averageifyO l) (averageifyO r)

def averageifyO : ONode → ONode
  | .none => .none
  | .some n => .some (averageifyN n)
end

mutual
/-- `EvalTree.maxify`: rewrite every `d`, `da` or `dc` payload to `dm`. -/
def maxifyN : ENode → ENode
  | .mk pl l r =>
    .mk (if pl = .op .d ∨ pl = .op .da ∨ pl = .op .dc then .op .dm else pl)
      (maxifyO l) (maxifyO r)

def maxifyO : ONode → ONode
  | .none => .none
  | .some n => .some (maxifyN n)
end

mutual
/-- The pre-order payload sequence of a subtree (`EvalTree.pre_order`,
collecting payloads). -/
def preOrderN : ENode → List Payload
  | .mk p l r => p :: (preOrderO l ++ preOrderO r)

def preOrderO : ONode → List Payload
  | .none => []
  | .some n => preOrderN n
end

mutual
/-- The tree with every payload erased (for stating that a transform keeps
the left/right structure intact). -/
def stripN : ENode → ENode
  | .mk _ l r => .mk (.int 0) (stripO l) (stripO r)

def stripO : ONode → ONode
  | .none => .none
  | .some n => .some (stripN n)
end

/-! ## The tokenizer state machine (tokenizer.py) -/

/-- Python whitespace (`string.whitespace` / `str.isspace` for the ASCII
range used here). -/
def isPySpace (c : Char) : Bool :=
  c == ' ' || c == '\t' || c == '\n' || c == '\r' || c == '\x0b' || c == '\x0c'

/-- Every character of every operator code. -/
def opAllChars : List Char := (allOpCodes.map codeChars).flatten

/-- `State._recognized`: operator-code characters except `'p'`, digits,
`.`/`F`/`,`, brackets and parentheses, and whitespace. -/
def recognizedChar (c : Char) : Bool :=
  (opAllChars.contains c && c != 'p') || c.isDigit || c == '.' || c == 'F' || c == ','
    || c == '[' || c == ']' || c == '(' || c == ')' || isPySpace c

/-- `Binary.codes`: codes of arity-BOTH operators not starting with `d`. -/
def binaryCodes : List (List Char) :=
  (allOpCodes.filter fun o =>
    decide ((opInfo o).arity = Side.both) && !((codeChars o).head? == some 'd')).map codeChars

/-- `Die.codes`: codes starting with `d`. -/
def dieCodes : List (List Char) :=
  (allOpCodes.filter fun o => (codeChars o).head? == some 'd').map codeChars

/-- `Binary.starters`: first characters of the binary codes. -/
def binaryStarters : List Char := binaryCodes.filterMap (·.head?)

/-- The states of the tokenizer (one constructor per `State` subclass;
`UnaryPrefix` is `unarySign` and `UnarySuffix` is `unaryPost` here). -/
inductive TKind : Type where
  | inputStart | inputEnd
  | exprStart | exprEnd
  | integer
  | binary | unarySign | unaryPost | die
  | fudge
  | listTok | listStart | listValue | listSep | listEnd
  | openParen | closeParen
deriving DecidableEq

/-- `starters` per state. -/
def startersOf (k : TKind) (c : Char) : Bool :=
  match k with
  | .integer => c.isDigit
  | .binary => binaryStarters.contains c
  | .unarySign => c == '+' || c == '-'
  | .unaryPost => c == '!'
  | .die => c == 'd'
  | .fudge => c == 'F'
  | .listTok => c == '['
  | .listStart => c == '['
  | .listValue => c.isDigit || c == '.'
  | .listSep => c == ','
  | .listEnd => c == ']'
  | .openParen => c == '('
  | .closeParen => c == ')'
  | .exprStart => recognizedChar c
  | .exprEnd => recognizedChar c
  | .inputStart => false
  | .inputEnd => false

/-- `consumes` per state (the `1e6` of `Integer`/`ListValue` as a large
constant). -/
def consumesOf : TKind → ℕ
  | .integer => 1000000
  | .listValue => 1000000
  | .exprStart => 0
  | .exprEnd => 0
  | _ => 1

/-- `followers` per state, in declaration order. -/
def followersOf : TKind → List TKind
  | .inputStart => [.exprStart, .inputEnd]
  | .exprStart => [.openParen, .unarySign, .integer]
  | .exprEnd => [.unaryPost, .binary, .die, .closeParen, .inputEnd]
  | .integer => [.exprEnd, .inputEnd]
  | .binary => [.exprStart]
  | .unarySign => [.exprStart]
  | .unaryPost => [.exprEnd, .inputEnd]
  | .die => [.integer, .listTok, .fudge, .openParen]
  | .fudge => [.exprEnd, .inputEnd]
  | .listTok => [.exprEnd, .inputEnd]
  | .listStart => [.listValue]
  | .listValue => [.listSep, .listEnd]
  | .listSep => [.listValue]
  | .listEnd => [.exprEnd, .inputEnd]
  | .openParen => [.exprStart]
  | .closeParen => [.exprEnd, .inputEnd]
  | .inputEnd => []

/-- What a state's `collect` produces: a token, or a bare float (only from
`ListValue`, consumed by the list sub-machine). -/
inductive Collected : Type where
  | tok (t : Token)
  | fl (q : ℚ)

/-- The integer value of a run of digit characters. -/
def digitsToInt (s : List Char) : ℤ :=
  s.foldl (fun a c => 10 * a + ((c.toNat : ℤ) - 48)) 0

/-- Look an aggregated code up in `OPERATORS`. -/
def opFromCode (s : List Char) : Option OpCode :=
  allOpCodes.find? fun o => codeChars o = s

/-- Python `float()` on a run of digits and dots: at most one dot and at
least one digit. -/
def parseFloatChars (s : List Char) : Option ℚ :=
  if s.count '.' ≤ 1 && s.any (·.isDigit) then
    let ip := s.takeWhile (· != '.')
    let fp := (s.dropWhile (· != '.')).drop 1
    some ((digitsToInt ip : ℚ) + (digitsToInt fp : ℚ) / (10 : ℚ) ^ fp.length)
  else none

/-- `collect` per state, given the aggregated characters and the state's
current position (used for error offsets).  Marker states produce
nothing. -/
def collectK (k : TKind) (agg : List Char) (i : ℕ) : Except PErr (Option Collected) :=
  match k with
  | .integer => .ok (some (.tok (.int (digitsToInt agg))))
  | .binary | .die | .unaryPost =>
    match opFromCode agg with
    | some o => .ok (some (.tok (.op o)))
    | none => .error (.invalidOperator (i - agg.length))
  | .unarySign =>
    match agg with
    | '+' :: _ => .ok (some (.tok (.op .p)))
    | '-' :: _ => .ok (some (.tok (.op .m)))
    | _ => .ok none
  | .fudge => .ok (some (.tok (.tup [-1, 0, 1])))
  | .openParen => .ok (some (.tok .lparen))
  | .closeParen => .ok (some (.tok .rparen))
  | .listValue =>
    match parseFloatChars agg with
    | some q => .ok (some (.fl q))
    | none => .error (.badFloat (i - agg.length))
  | _ => .ok none

/-- The first follower that can start with the given character, at the
given position. -/
def followerAt (k : TKind) (c : Char) (i : ℕ) : Option (TKind × ℕ) :=
  ((followersOf k).find? fun k' => startersOf k' c).map fun k' => (k', i)

/-- `next_state`: `none` keeps aggregating; otherwise transfer to the
first matching follower or raise.  `FudgeDie`, `OpenParen` and
`CloseParen` override it to jump directly past their character;
`Binary`/`Die` override it with greedy longest-prefix aggregation over
their code sets. -/
def nextState (k : TKind) (i : ℕ) (c : Char) (agg : List Char) :
    Except PErr (Option (TKind × ℕ)) :=
  match k with
  | .fudge => .ok (some (.exprEnd, i + 1))
  | .openParen => .ok (some (.exprStart, i + 1))
  | .closeParen => .ok (some (.exprEnd, i + 1))
  | .binary =>
    if binaryCodes.contains (agg ++ [c]) || agg.isEmpty then .ok none
    else
      match followerAt k c i with
      | some f => .ok (some f)
      | none => .error (.illegalChar i)
  | .die =>
    if dieCodes.contains (agg ++ [c]) || agg.isEmpty then .ok none
    else
      match followerAt k c i with
      | some f => .ok (some f)
      | none => .error (.illegalChar i)
  | _ =>
    if agg.length < consumesOf k && startersOf k c then .ok none
    else
      match followerAt k c i with
      | some f => .ok (some f)
      | none => .error (.illegalChar i)

/-- The length of the whitespace run at the head of a character list. -/
def spaceRun : List Char → ℕ
  | [] => 0
  | c :: rest => if isPySpace c then spaceRun rest + 1 else 0

/-- `State._slurp_whitespace`: advance past the whitespace run at `i`. -/
def slurp (expr : List Char) (i : ℕ) : ℕ := i + spaceRun (expr.drop i)

/-- `_end_of_input`: finish if `InputEnd` is allowed to follow, else the
expression ended unexpectedly. -/
def endOfInput (k : TKind) (agg : List Char) (i : ℕ) :
    Except PErr (Option Collected × TKind × ℕ) :=
  if (followersOf k).contains .inputEnd then
    match collectK k agg i with
    | .error e => .error e
    | .ok t => .ok (t, .inputEnd, i)
  else .error (.unexpectedEnd i)

/-- `State.run`: walk the string aggregating characters for the current
token; stop at the first character of the next token (or at whitespace,
or at the end of input) and emit the collected token plus the next
state. -/
def runG (expr : List Char) : ℕ → TKind → ℕ → List Char →
    Except PErr (Option Collected × TKind × ℕ)
  | 0, _, _, _ => .error .construction
  | fuel + 1, k, i, agg =>
    if h : i < expr.length then
      let char := expr.get ⟨i, h⟩
      if ¬ recognizedChar char then .error (.unrecognizedChar i)
      else if isPySpace char then
        let j := slurp expr i
        if hj : j < expr.length then
          match nextState k j (expr.get ⟨j, hj⟩) agg with
          | .error e => .error e
          | .ok none => .error (.tokenBroken j)
          | .ok (some (k', i')) =>
            match collectK k agg j with
            | .error e => .error e
            | .ok t => .ok (t, k', i')
        else endOfInput k agg j
      else
        match nextState k i char agg with
        | .error e => .error e
        | .ok none => runG expr fuel k (i + 1) (agg ++ [char])
        | .ok (some (k', i')) =>
          match collectK k agg i with
          | .error e => .error e
          | .ok t => .ok (t, k', i')
    else endOfInput k agg i

/-- One `State.run` call: the fuel `length + 1 - i` always covers the at
most `length - i` characters the run can consume, so the artificial
fuel-exhaustion error of `runG` is unreachable. -/
def runState (expr : List Char) (k : TKind) (i : ℕ) :
    Except PErr (Option Collected × TKind × ℕ) :=
  runG expr (expr.length + 1 - i) k i []

/-- `ListToken.run`'s sub-machine loop: run list states until `ListEnd`
is reached, collecting the float values.  A step never fails to make
progress, so the fuel given by the caller cannot actually run out. -/
def listDrive (expr : List Char) : ℕ → TKind → ℕ → List ℚ →
    Option (Except PErr (List ℚ × ℕ))
  | 0, _, _, _ => none
  | fuel + 1, k, i, sides =>
    if k = .listEnd then some (.ok (sides, i))
    else
      match runState expr k i with
      | .error e => some (.error e)
      | .ok (t, k', i') =>
        let sides' := match t with
          | some (.fl q) => sides ++ [q]
          | _ => sides
        listDrive expr fuel k' i' sides'

/-- One step of the machine: `ListToken` runs its sub-machine and then
transfers past the `']'` into `ExprEnd`; every other state runs the
generic `run`. -/
def stateRun (expr : List Char) (k : TKind) (i : ℕ) :
    Except PErr (Option Collected × TKind × ℕ) :=
  if k = .listTok then
    match listDrive expr (expr.length + 2) .listStart i [] with
    | none => .error .construction
    | some (.error e) => .error e
    | some (.ok (sides, j)) => .ok (some (.tok (.tup sides)), .exprEnd, j + 1)
  else runState expr k i

/-- The driver loop of `tokens_lazy`: run states until `InputEnd`,
accumulating the yielded tokens.  `none` means the fuel ran out. -/
def machineDrive (expr : List Char) : ℕ → TKind → ℕ → List Token →
    Option (Except PErr (List Token))
  | 0, _, _, _ => none
  | fuel + 1, k, i, acc =>
    if k = .inputEnd then some (.ok acc)
    else
      match stateRun expr k i with
      | .error e => some (.error e)
      | .ok (t, k', i') =>
        let acc' := match t with
          | some (.tok tk) => acc ++ [tk]
          | _ => acc
        machineDrive expr fuel k' i' acc'

/-- `str.find` (the character is present whenever this is used). -/
def pyFindIdx (expr : List Char) (c : Char) : ℕ := expr.indexOf c

/-- `str.rfind`. -/
def pyRFindIdx (expr : List Char) (c : Char) : ℕ :=
  expr.length - 1 - expr.reverse.indexOf c

/-- `tokens_lazy` / `tokens`: the global parenthesis-count pre-check (an
excess of `'('` errors at the first `'('`, an excess of `')'` at the last
`')'`), then the state machine from `InputStart`. -/
def tokensFn (expr : List Char) : Option (Except PErr (List Token)) :=
  let opens := expr.count '('
  let closes := expr.count ')'
  if opens > closes then some (.error (.unclosedParen (pyFindIdx expr '(')))
  else if closes > opens then some (.error (.unopenedParen (pyRFindIdx expr ')')))
  else machineDrive expr (2 * expr.length + 4) .inputStart 0 []

/-! ## Entry points (core.py) -/

/-- The roll modes of core.py. -/
inductive Mode : Type where
  | normal | average | crit | maxM
deriving DecidableEq

/-- The mode block of `basic`/`verbose`: `if mode:` is false for `NORMAL`
(which has enum value 0); otherwise the matching transform is applied in
place. -/
def applyMode (mode : Mode) (root : ONode) : ONode :=
  match mode with
  | .normal => root
  | .average => averageifyO root
  | .crit => critifyO root
  | .maxM => maxifyO root

/-- An error escaping an entry point: a `ParseError` or an
`EvaluationError`. -/
inductive RollErr : Type where
  | parse (e : PErr)
  | eval (e : EErr)
deriving DecidableEq

/-- `EvalTree.__init__` from a source string: tokenize, then build. -/
def evalTreeFromStr (expr : List Char) : Option (Except PErr ONode) :=
  match tokensFn expr with
  | none => none
  | some (.error e) => some (.error e)
  | some (.ok ts) => some (from_tokens ts)

/-- The argument of `basic`: a number, a rollable string, or a
precompiled tree. -/
inductive RollArg : Type where
  | num (q : ℚ)
  | str (s : List Char)
  | tree (t : ONode)

/-- The tail of `basic` for a tree argument: apply the mode transform,
evaluate, and add the modifiers. -/
def basicEvalTree (rng : RNG) (fuel : ℕ) (root : ONode) (mode : Mode)
    (modifiers : ℚ) : Option (Except RollErr ℚ) :=
  match tree_evaluate rng fuel (applyMode mode root) 0 with
  | none => none
  | some (.error e) => some (.error (.eval e))
  | some (.ok (.num q)) => some (.ok (q + modifiers))
  | some (.ok _) => some (.error (.eval .argType))

/-- `basic(expr, mode, modifiers)`: a numeric `expr` returns
`expr + modifiers` immediately (no tokenizing, parsing, or mode
transform); a string is compiled to a tree; the tree is transformed per
the mode, evaluated, and the modifiers are added. -/
def basic (rng : RNG) (fuel : ℕ) (expr : RollArg) (mode : Mode)
    (modifiers : ℚ) : Option (Except RollErr ℚ) :=
  match expr with
  | .num q => some (.ok (q + modifiers))
  | .str s =>
    match evalTreeFromStr s with
    | none => none
    | some (.error e) => some (.error (.parse e))
    | some (.ok root) => basicEvalTree rng fuel root mode modifiers
  | .tree root => basicEvalTree rng fuel root mode modifiers

/-! ## A heap model of tree identity (evaltree.py `EvalTree.__init__`
from an existing tree, `EvalTree.copy`, and the in-place transforms)

The pure tree model cannot express Python object identity, so sharing
between trees is modelled with an explicit arena of nodes addressed by
index: a tree is an optional root index into the arena, and the in-place
transforms update the arena. -/

/-- A heap-allocated `EvalTreeNode`: payload, child pointers, and the
lazily cached `value`. -/
structure HNode : Type where
  payload : Payload
  left : Option ℕ
  right : Option ℕ
  value : Option Value

/-- The node arena (index = object identity). -/
abbrev Arena := List HNode

/-- `EvalTree.__init__` where the source is an existing `EvalTree`:
`self.root = source.root` - the root node is shared, nothing is copied. -/
def initFromTree (a : Arena) (root : Option ℕ) : Arena × Option ℕ := (a, root)

/-- The payload rewrite of `critify`. -/
def critPayload (pl : Payload) : Payload :=
  if pl = .op .d ∨ pl = .op .da then .op .dc else pl

/-- The pre-order walk of `critify` over the arena, rewriting payloads in
place.  The fuel bounds the recursion depth; under the well-formedness
invariant (children have smaller indices) a fuel of `index + 1` always
suffices. -/
def critifyVisit : ℕ → Arena → ℕ → Arena
  | 0, a, _ => a
  | fuel + 1, a, i =>
    match a.get? i with
    | none => a
    | some nd =>
      let a1 := a.set i { nd with payload := critPayload nd.payload }
      let a2 := match nd.left with
        | none => a1
        | some j => critifyVisit fuel a1 j
      match nd.right with
      | none => a2
      | some j => critifyVisit fuel a2 j

/-- `EvalTree.critify` on the arena. -/
def critifyH (a : Arena) (root : Option ℕ) : Arena :=
  match root with
  | none => a
  | some r => critifyVisit (r + 1) a r

/-- The recursive clone of `copy.deepcopy`: clone the children, then
append a fresh node.  Returns the extended arena and the clone's index. -/
def cloneVisit : ℕ → Arena → ℕ → Arena × Option ℕ
  | 0, a, _ => (a, none)
  | fuel + 1, a, i =>
    match a.get? i with
    | none => (a, none)
    | some nd =>
      let (a1, l') := match nd.left with
        | none => (a, none)
        | some j => cloneVisit fuel a j
      let (a2, r') := match nd.right with
        | none => (a1, none)
        | some j => cloneVisit fuel a1 j
      (a2 ++ [{ payload := nd.payload, left := l', right := r', value := nd.value }],
        some a2.length)

/-- `EvalTree.copy()`: a deep copy into fresh nodes. -/
def copyH (a : Arena) (root : Option ℕ) : Arena × Option ℕ :=
  match root with
  | none => (a, none)
  | some r => cloneVisit (r + 1) a r

/-- Read the pure tree out of the arena (for comparing a clone with its
original). -/
def readTree : ℕ → Arena → Option ℕ → ONode
  | _, _, none => .none
  | 0, _, some _ => .none
  | fuel + 1, a, some i =>
    match a.get? i with
    | none => .none
    | some nd =>
      .some (.mk nd.payload (readTree fuel a nd.left) (readTree fuel a nd.right))

/-- Arena well-formedness: every node's children live at strictly smaller
indices (nodes are allocated bottom-up). -/
def ArenaWF (a : Arena) : Prop :=
  ∀ i nd, a.get? i = some nd →
    (∀ j ∈ nd.left, j < i) ∧ (∀ j ∈ nd.right, j < i)

/-- Region-closedness above `k`: every node at index `≥ k` has children at
indices `≥ k` (true of the freshly cloned region). -/
def RegionClosed (a : Arena) (k : ℕ) : Prop :=
  ∀ i nd, k ≤ i → a.get? i = some nd →
    (∀ j ∈ nd.left, k ≤ j) ∧ (∀ j ∈ nd.right, k ≤ j)

/-! ## Auxiliary definitions used by the theorem statements -/

/-- A deterministic random source whose every draw is `k`. -/
def constIntRng (k : ℤ) : RNG := ⟨fun _ _ _ => k, fun _ _ => (k : ℚ)⟩

/-- The die always yields a successful draw (true of any well-formed die:
a positive integer side count, a nonempty side tuple, or a nested roll
with a positive integer sum). -/
def drawsOk (rng : RNG) (die : Value) : Prop :=
  ∀ j, ∃ v, single_die rng j die = .ok (v, j + 1)

/-- From any point on, the source eventually yields a draw that stops the
reroll comparison.  The uniform source satisfies this with probability 1
whenever a stopping face exists. -/
def eventuallyStops (rng : RNG) (die : Value) (comp : ℚ → ℚ → Bool) (target : ℚ) : Prop :=
  ∀ j, ∃ n, j ≤ n ∧ ∃ v, single_die rng n die = .ok (v, n + 1) ∧ comp v target = false

/-- Nesting-level parenthesis balance of a string (what "balanced
parentheses" means; the tokenizer's pre-check only compares counts). -/
def parenScan : List Char → ℤ → Bool
  | [], depth => depth == 0
  | c :: rest, depth =>
    if c == '(' then parenScan rest (depth + 1)
    else if c == ')' then depth > 0 && parenScan rest (depth - 1)
    else parenScan rest depth

/-- The legal predecessors of a unary sign token: nothing (start of
input), an open parenthesis, or an operator that is neither the postfix
`!` nor a die operator. -/
def unaryPosition (prior : Option Token) : Prop :=
  prior = none ∨ prior = some .lparen ∨
    ∃ o, prior = some (.op o) ∧ o ≠ .fact ∧ o ∉ [OpCode.d, .da, .dc, .dm]

/-- The legal predecessors of a binary operator token: a value, a close
parenthesis, or the postfix `!`. -/
def binaryPosition (prior : Option Token) : Prop :=
  (∃ n, prior = some (.int n)) ∨ (∃ l, prior = some (.tup l)) ∨
    prior = some .rparen ∨ prior = some (.op .fact)

/-- An operator code drawn from `Binary.codes` (arity BOTH, not a die
operator). -/
def isBinaryCode (o : OpCode) : Prop :=
  (opInfo o).arity = Side.both ∧ (codeChars o).head? ≠ some 'd'

/-! ## Concrete instances used by counterexamples and witnesses -/

/-- The token list `[(1.0, 2.0)]`: a lone side-tuple leaf. -/
def c2tokens : List Token := [.tup [1, 2]]

/-- The tree of `1da4`. -/
def c4tree : ENode :=
  .mk (.op .da) (.some (leafNode (.int 1))) (.some (leafNode (.int 4)))

/-- The arena of a `1d4` tree: leaves at 0 and 1, the `d` node at 2. -/
def heapArena : Arena :=
  [⟨.int 1, none, none, none⟩, ⟨.int 4, none, none, none⟩,
   ⟨.op .d, some 0, some 1, none⟩]

deriving instance DecidableEq for Except

/-- Operator codes a `Binary` state can emit: everything except the
postfix `!`, the die operators, and the unary sign codes (whose
characters can never enter a binary aggregation). -/
def GoodBin (o : OpCode) : Prop :=
  o ∉ [OpCode.fact, .d, .da, .dc, .dm, .p, .m]

/-- Operator codes a `Die` state can emit. -/
def GoodDie (o : OpCode) : Prop := o ∈ [OpCode.d, .da, .dc, .dm]

/-- What each state's successful `run` can emit. -/
def EmitOK (k : TKind) (t : Option Collected) : Prop :=
  match k with
  | .integer => ∃ n, t = some (.tok (.int n))
  | .binary => ∃ o, t = some (.tok (.op o)) ∧ GoodBin o
  | .die => ∃ o, t = some (.tok (.op o)) ∧ GoodDie o
  | .unarySign => t = none ∨ t = some (.tok (.op .p)) ∨ t = some (.tok (.op .m))
  | .unaryPost => t = some (.tok (.op .fact))
  | .fudge => ∃ l, t = some (.tok (.tup l))
  | .listTok => t = none ∨ ∃ l, t = some (.tok (.tup l))
  | .openParen => t = some (.tok .lparen)
  | .closeParen => t = some (.tok .rparen)
  | .listValue => t = none ∨ ∃ q, t = some (.fl q)
  | _ => t = none

/-- The aggregator invariant of a running state: for the states with
greedy code aggregation, the collected characters are a known code
prefix (or the run is at its starting character). -/
def AggInv (expr : List Char) (k : TKind) (i : ℕ) (agg : List Char) : Prop :=
  match k with
  | .binary =>
    (agg = [] ∧ ∃ h : i < expr.length, binaryStarters.contains (expr.get ⟨i, h⟩) = true) ∨
      binaryCodes.contains agg = true ∨
      (∃ c, agg = [c] ∧ binaryStarters.contains c = true)
  | .die =>
    (agg = [] ∧ ∃ h : i < expr.length, expr.get ⟨i, h⟩ = 'd') ∨
      dieCodes.contains agg = true
  | .unaryPost =>
    (agg = [] ∧ ∃ h : i < expr.length, expr.get ⟨i, h⟩ = '!') ∨ agg = ['!']
  | _ => True

/-- The position-independent part of `AggInv` (what `collect` needs). -/
def AggOK (k : TKind) (agg : List Char) : Prop :=
  match k with
  | .binary =>
    agg = [] ∨ binaryCodes.contains agg = true ∨
      (∃ c, agg = [c] ∧ binaryStarters.contains c = true)
  | .die => agg = [] ∨ dieCodes.contains agg = true
  | .unaryPost => agg = [] ∨ agg = ['!']
  | _ => True

/-- The states whose entry position must hold one of their starter
characters for the run characterizations to apply. -/
def needStarter (k : TKind) : Prop :=
  k = .binary ∨ k = .die ∨ k = .unaryPost

/-- A successor state is either a legal follower or the end of input, and
a code-aggregating successor starts at one of its starter characters. -/
def StarterOut (expr : List Char) (k' : TKind) (i' : ℕ) : Prop :=
  needStarter k' → ∃ h : i' < expr.length, startersOf k' (expr.get ⟨i', h⟩) = true

/-- The link between the machine's state and the last token emitted so
far: a `UnaryPrefix` state only ever runs right after a token that
legitimizes a unary sign, and a `Binary` state right after a token that
legitimizes a binary operator.  The list-internal states are `False`:
the driver loop never runs them (they only occur inside `ListToken`'s
sub-machine). -/
def StateLink (k : TKind) (last : Option Token) : Prop :=
  match k with
  | .inputStart => last = none
  | .exprStart => unaryPosition last
  | .unarySign => unaryPosition last
  | .exprEnd => binaryPosition last
  | .binary => binaryPosition last
  | .listStart => False
  | .listValue => False
  | .listSep => False
  | .listEnd => False
  | _ => True

/-- The claim's property over a finished token list: every unary sign
token sits in a unary position and every binary `+`/`-` in a binary
position. -/
def PropOK (ts : List Token) : Prop :=
  ∀ j tk, ts.get? j = some tk →
    ((tk = .op .p ∨ tk = .op .m) →
      unaryPosition (if j = 0 then none else ts.get? (j - 1))) ∧
    ((tk = .op .add ∨ tk = .op .sub) →
      j ≠ 0 ∧ binaryPosition (ts.get? (j - 1)))

/-- The accumulator update of `machineDrive`'s loop body. -/
def accAfter (t : Option Collected) (acc : List Token) : List Token :=
  match t with
  | some (.tok tk) => acc ++ [tk]
  | _ => acc


/-! # Theorems -/

/-! ## Transform helper lemmas -/

mutual
theorem preOrder_critifyN : ∀ n : ENode,
    preOrderN (critifyN n) =
      (preOrderN n).map fun pl => if pl = .op .d ∨ pl = .op .da then .op .dc else pl
  | .mk pl l r => by
    simp only [critifyN, preOrderN, List.map_cons, List.map_append,
      preOrder_critifyO l, preOrder_critifyO r]

theorem preOrder_critifyO : ∀ o : ONode,
    preOrderO (critifyO o) =
      (preOrderO o).map fun pl => if pl = .op .d ∨ pl = .op .da then .op .dc else pl
  | .none => rfl
  | .some n => by simp only [critifyO, preOrderO, preOrder_critifyN n]
end

mutual
theorem preOrder_averageifyN : ∀ n : ENode,
    preOrderN (averageifyN n) =
      (preOrderN n).map fun pl => if pl = .op .d then .op .da else pl
  | .mk pl l r => by
    simp only [averageifyN, preOrderN, List.map_cons, List.map_append,
      preOrder_averageifyO l, preOrder_averageifyO r]

theorem preOrder_averageifyO : ∀ o : ONode,
    preOrderO (averageifyO o) =
      (preOrderO o).map fun pl => if pl = .op .d then .op .da else pl
  | .none => rfl
  | .some n => by simp only [averageifyO, preOrderO, preOrder_averageifyN n]
end

mutual
theorem preOrder_maxifyN : ∀ n : ENode,
    preOrderN (maxifyN n) =
      (preOrderN n).map fun pl => if pl = .op .d ∨ pl = .op .da ∨ pl = .op .dc then .op .dm else pl
  | .mk pl l r => by
    simp only [maxifyN, preOrderN, List.map_cons, List.map_append,
      preOrder_maxifyO l, preOrder_maxifyO r]

theorem preOrder_maxifyO : ∀ o : ONode,
    preOrderO (maxifyO o) =
      (preOrderO o).map fun pl => if pl = .op .d ∨ pl = .op .da ∨ pl = .op .dc then .op .dm else pl
  | .none => rfl
  | .some n => by simp only [maxifyO, preOrderO, preOrder_maxifyN n]
end

mutual
theorem strip_critifyN : ∀ n : ENode, stripN (critifyN n) = stripN n
  | .mk _ l r => by
    simp only [critifyN, stripN, strip_critifyO l, strip_critifyO r]

theorem strip_critifyO : ∀ o : ONode, stripO (critifyO o) = stripO o
  | .none => rfl
  | .some n => by simp only [critifyO, stripO, strip_critifyN n]
end

mutual
theorem strip_averageifyN : ∀ n : ENode, stripN (averageifyN n) = stripN n
  | .mk _ l r => by
    simp only [averageifyN, stripN, strip_averageifyO l, strip_averageifyO r]

theorem strip_averageifyO : ∀ o : ONode, stripO (averageifyO o) = stripO o
  | .none => rfl
  | .some n => by simp only [averageifyO, stripO, strip_averageifyN n]
end

mutual
theorem strip_maxifyN : ∀ n : ENode, stripN (maxifyN n) = stripN n
  | .mk _ l r => by
    simp only [maxifyN, stripN, strip_maxifyO l, strip_maxifyO r]

theorem strip_maxifyO : ∀ o : ONode, stripO (maxifyO o) = stripO o
  | .none => rfl
  | .some n => by simp only [maxifyO, stripO, strip_maxifyN n]
end

/-! ## C10 -/

/-- C10: for every numeric `expr`, any mode, and any (numeric) modifiers,
`basic(expr, mode, modifiers)` returns exactly `expr + modifiers`,
without tokenizing, parsing, or applying the mode transform, and never
raises. -/
theorem c10_basic_numeric_passthrough (rng : RNG) (fuel : ℕ) (q : ℚ)
    (mode : Mode) (modifiers : ℚ) :
    basic rng fuel (.num q) mode modifiers = some (.ok (q + modifiers)) := rfl

/-! ## C4 -/

/-- C4 (counterexample): `critify` also rewrites a `da` payload (the root
of `1da4`) to `dc`, so it does not replace exactly the `d` payloads. -/
theorem c4_counterexample_critify_da :
    c4tree.payload = .op .da ∧ (critifyN c4tree).payload = .op .dc ∧
      Payload.op .da ≠ .op .dc :=
  ⟨rfl, rfl, by simp⟩

/-- C4 (amended): over every expression tree, `critify` replaces exactly
the `d` and `da` payloads with `dc`, `averageify` replaces exactly `d`
with `da`, and `maxify` replaces exactly `d`, `da` and `dc` with `dm`; no
other payload changes (pre-order payload lists map pointwise) and the
left/right structure of every node is unchanged by each transform. -/
theorem c4_mode_transform_rewrites :
    (∀ n : ENode,
      preOrderN (critifyN n) =
        (preOrderN n).map fun pl => if pl = .op .d ∨ pl = .op .da then .op .dc else pl) ∧
    (∀ n : ENode,
      preOrderN (averageifyN n) =
        (preOrderN n).map fun pl => if pl = .op .d then .op .da else pl) ∧
    (∀ n : ENode,
      preOrderN (maxifyN n) =
        (preOrderN n).map fun pl =>
          if pl = .op .d ∨ pl = .op .da ∨ pl = .op .dc then .op .dm else pl) ∧
    (∀ n : ENode, stripN (critifyN n) = stripN n) ∧
    (∀ n : ENode, stripN (averageifyN n) = stripN n) ∧
    (∀ n : ENode, stripN (maxifyN n) = stripN n) :=
  ⟨preOrder_critifyN, preOrder_averageifyN, preOrder_maxifyN,
    strip_critifyN, strip_averageifyN, strip_maxifyN⟩

/-! ## C2 -/

/-- C2 (counterexample): a tree whose root holds a side tuple (built from
the token list `[(1.0, 2.0)]`) evaluates to the tuple's sum `3`, not to
the root's value unchanged, although that value is not a `Roll`. -/
theorem c2_counterexample_tuple_root :
    from_tokens c2tokens = .ok (.some (leafNode (.tup [1, 2]))) ∧
    nodeEval (constIntRng 0) 0 (leafNode (.tup [1, 2])) 0 =
      some (.ok (.tup [1, 2], 0)) ∧
    tree_evaluate (constIntRng 0) 0 (.some (leafNode (.tup [1, 2]))) 0 =
      some (.ok (.num 3)) ∧
    Value.num 3 ≠ Value.tup [1, 2] :=
  ⟨rfl, rfl, by
    have h3 : ([1, 2] : List ℚ).sum = 3 := by norm_num [List.sum_cons]
    simp [tree_evaluate, nodeEval, sumIfIterable, leafNode, h3], by simp⟩

/-- C2 (amended): `EvalTree.evaluate` returns the sum of the root's
computed value when that value is a `Roll` or a side tuple (both are
iterable, so `sum` succeeds), and the value itself unchanged otherwise
(a number); a tree with no root, and the literal-zero tree built from an
empty token sequence, evaluate to 0. -/
theorem c2_evaluate_sums_root :
    (∀ (rng : RNG) (fuel ctr : ℕ),
      tree_evaluate rng fuel .none ctr = some (.ok (.num 0))) ∧
    (from_tokens [] = .ok (.some (leafNode (.int 0)))) ∧
    (∀ (rng : RNG) (fuel ctr : ℕ),
      tree_evaluate rng fuel (.some (leafNode (.int 0))) ctr = some (.ok (.num 0))) ∧
    (∀ (rng : RNG) (fuel : ℕ) (r : ENode) (ctr : ℕ) (v : Value) (c : ℕ),
      nodeEval rng fuel r ctr = some (.ok (v, c)) →
        tree_evaluate rng fuel (.some r) ctr =
          some (.ok (match v with
            | .roll rolls _ _ => .num rolls.sum
            | .tup l => .num l.sum
            | .num q => .num q))) := by
  refine ⟨fun _ _ _ => rfl, rfl, fun _ _ _ => rfl, fun rng fuel r ctr v c h => ?_⟩
  simp only [tree_evaluate, h]
  cases v <;> rfl

/-- C2 (witness): the amended theorem applied to the `5` leaf. -/
theorem c2_evaluate_sums_root_witness :
    tree_evaluate (constIntRng 0) 0 (.some (leafNode (.int 5))) 0 =
      some (.ok (.num 5)) :=
  c2_evaluate_sums_root.2.2.2 (constIntRng 0) 0 (leafNode (.int 5)) 0 (.num 5) 0 rfl

/-! ## C1 -/

theorem single_die_const (k S : ℤ) (hS : 0 < S) (c : ℕ) :
    single_die (constIntRng k) c (.num (S : ℚ)) = .ok ((k : ℚ), c + 1) := by
  simp only [single_die, Rat.den_intCast, Rat.num_intCast, constIntRng]
  rw [if_pos trivial, if_neg (by omega)]

theorem dice_rolls_const (k S : ℤ) (hS : 0 < S) :
    ∀ (n c : ℕ), dice_rolls (constIntRng k) (.num (S : ℚ)) n c =
      .ok (List.replicate n (k : ℚ), c + n) := by
  intro n
  induction n with
  | zero => intro c; rfl
  | succ n ih =>
    intro c
    rw [dice_rolls, single_die_const k S hS c]
    simp only [bind, Except.bind, ih (c + 1), List.replicate_succ]
    have hc : c + 1 + n = c + (n + 1) := by omega
    rw [hc]

theorem sum_sortList (l : List ℚ) : (sortList l).sum = l.sum :=
  (List.perm_insertionSort _ l).sum_eq

theorem c1_eval_general (N S k : ℤ) (hN : 0 < N) (hS : 0 < S) (fuel : ℕ) :
    tree_evaluate (constIntRng k) fuel
      (.some (.mk (.op .d) (.some (leafNode (.int N))) (.some (leafNode (.int S))))) 0 =
      some (.ok (.num ((N : ℚ) * (k : ℚ)))) := by
  have hden : ((N : ℚ)).den = 1 := Rat.den_intCast N
  have hnum : ((N : ℚ)).num = N := Rat.num_intCast N
  have h1 : nodeEval (constIntRng k) fuel
      (.mk (.op .d) (.some (leafNode (.int N))) (.some (leafNode (.int S)))) 0 =
      some (applyOpE (constIntRng k) .d (some (.num (N : ℚ))) (some (.num (S : ℚ))) 0) := rfl
  have happ : applyOpE (constIntRng k) .d (some (.num (N : ℚ))) (some (.num (S : ℚ))) 0 =
      .ok (.roll (sortList (List.replicate N.toNat (k : ℚ))) (.num (S : ℚ)) [], 0 + N.toNat) := by
    simp only [applyOpE, asNum, pyRange, roll_basic, rollInit, RollS.toValue, bind, Except.bind,
      hden, hnum, if_pos rfl, dice_rolls_const k S hS]
    simp
  have hsum : (sortList (List.replicate N.toNat (k : ℚ))).sum = (N : ℚ) * (k : ℚ) := by
    rw [sum_sortList, List.sum_replicate, nsmul_eq_mul]
    congr 1
    rw [← Int.cast_natCast, Int.toNat_of_nonneg hN.le]
  simp only [tree_evaluate, h1, happ, sumIfIterable, hsum]

theorem tokens_3d4 : tokensFn ['3', 'd', '4'] = some (.ok [.int 3, .op .d, .int 4]) := rfl

/-- C1: for positive integers `N` and `S`, the token sequence of `"NdS"`
parses to the single `d` node over the two integer leaves, and with a
deterministic random source returning `k` on every single-die draw it
evaluates to exactly `N * k`; in particular `basic("3d4")` with every die
forced to 4 returns 12 (through the whole tokenize-parse-evaluate
pipeline). -/
theorem c1_nds_sum_invariant (N S k : ℤ) (hN : 0 < N) (hS : 0 < S) :
    from_tokens [.int N, .op .d, .int S] =
      .ok (.some (.mk (.op .d) (.some (leafNode (.int N))) (.some (leafNode (.int S))))) ∧
    (∀ fuel : ℕ, tree_evaluate (constIntRng k) fuel
      (.some (.mk (.op .d) (.some (leafNode (.int N))) (.some (leafNode (.int S))))) 0 =
      some (.ok (.num ((N : ℚ) * (k : ℚ))))) ∧
    basic (constIntRng 4) 0 (.str ['3', 'd', '4']) .normal 0 = some (.ok 12) := by
  refine ⟨rfl, fun fuel => c1_eval_general N S k hN hS fuel, ?_⟩
  simp only [basic, evalTreeFromStr, tokens_3d4,
    show from_tokens [Token.int 3, .op .d, .int 4] =
      .ok (.some (.mk (.op .d) (.some (leafNode (.int 3))) (.some (leafNode (.int 4))))) from rfl,
    basicEvalTree, applyMode]
  rw [c1_eval_general 3 4 4 (by norm_num) (by norm_num) 0]
  norm_num

/-- C1 (witness): three d4 dice all forced to 5 total 15. -/
theorem c1_nds_sum_invariant_witness :
    tree_evaluate (constIntRng 5) 0
      (.some (.mk (.op .d) (.some (leafNode (.int 3))) (.some (leafNode (.int 4))))) 0 =
      some (.ok (.num 15)) := by
  have h := (c1_nds_sum_invariant 3 4 5 (by norm_num) (by norm_num)).2.1 0
  norm_num at h
  exact h

/-! ## C5 -/

theorem length_sortList (l : List ℚ) : (sortList l).length = l.length :=
  (List.perm_insertionSort _ l).length_eq

theorem clamp_low_scan_len (bottom : ℚ) :
    ∀ l : List ℚ, (clamp_low_scan bottom l).1.length = l.length
  | [] => rfl
  | v :: rest => by
    simp only [clamp_low_scan]
    by_cases h : v < bottom <;> simp [h, clamp_low_scan_len bottom rest]

theorem clamp_high_scan_len (top : ℚ) :
    ∀ l : List ℚ, (clamp_high_scan top l).1.length = l.length
  | [] => rfl
  | v :: rest => by
    simp only [clamp_high_scan]
    by_cases h : v > top <;> simp [h, clamp_high_scan_len top rest]

theorem take_high_spec (r : RollS) (k : ℤ) (r' : RollS) (h : take_high r k = .ok r') :
    r'.rolls.length + r'.discards.length ≥ r.rolls.length ∧
      (0 ≤ k → (r'.rolls.length : ℤ) = min (r.rolls.length : ℤ) k) := by
  unfold take_high RollS.copy at h
  by_cases hlen : (r.rolls.length : ℤ) > k
  · rw [if_pos hlen] at h
    unfold RollS.discard at h
    simp only [sliceStart, sliceStop, sliceClamp] at h
    rw [if_neg (by omega)] at h
    injection h with h
    subst h
    simp only [List.take_zero, List.nil_append, List.drop_zero, List.length_append,
      List.length_drop, List.length_take, Nat.max_comm, Nat.zero_max]
    constructor
    · omega
    · intro hk
      omega
  · rw [if_neg hlen] at h
    injection h with h
    subst h
    exact ⟨by omega, fun hk => by omega⟩

theorem take_low_spec (r : RollS) (k : ℤ) (r' : RollS) (h : take_low r k = .ok r') :
    r'.rolls.length + r'.discards.length ≥ r.rolls.length ∧
      (0 ≤ k → (r'.rolls.length : ℤ) = min (r.rolls.length : ℤ) k) := by
  unfold take_low RollS.copy at h
  by_cases hlen : (r.rolls.length : ℤ) > k
  · rw [if_pos hlen] at h
    unfold RollS.discard at h
    simp only [sliceStart, sliceStop, sliceClamp] at h
    rw [if_pos (by omega)] at h
    injection h with h
    subst h
    simp only [List.length_append, List.length_take, List.length_drop]
    constructor
    · omega
    · intro hk
      push_cast
      omega
  · rw [if_neg hlen] at h
    injection h with h
    subst h
    exact ⟨by omega, fun hk => by omega⟩

theorem reroll_once_scan_len (rng : RNG) (comp : ℚ → ℚ → Bool) (target : ℚ) (die : Value) :
    ∀ (l : List ℚ) (ctr : ℕ) (rolls' ds : List ℚ) (c : ℕ),
      reroll_once_scan rng comp target die l ctr = .ok (rolls', ds, c) →
        rolls'.length = l.length := by
  intro l
  induction l with
  | nil =>
    intro ctr rolls' ds c h
    simp only [reroll_once_scan] at h
    injection h with h
    injection h with h1 h23
    subst h1
    rfl
  | cons v rest ih =>
    intro ctr rolls' ds c h
    rw [reroll_once_scan] at h
    by_cases hc : comp v target
    · rw [if_pos hc] at h
      cases hsd : single_die rng ctr die with
      | error e => rw [hsd] at h; simp [bind, Except.bind] at h
      | ok p =>
        obtain ⟨v', ctr'⟩ := p
        rw [hsd] at h
        simp only [bind, Except.bind] at h
        cases hsc : reroll_once_scan rng comp target die rest ctr' with
        | error e => rw [hsc] at h; simp at h
        | ok q =>
          obtain ⟨rest', ds2, ctr''⟩ := q
          rw [hsc] at h
          injection h with h
          injection h with h1 h23
          subst h1
          simp [ih ctr' rest' ds2 ctr'' hsc]
    · rw [if_neg hc] at h
      simp only [bind, Except.bind] at h
      cases hsc : reroll_once_scan rng comp target die rest ctr with
      | error e => rw [hsc] at h; simp at h
      | ok q =>
        obtain ⟨rest', ds2, ctr''⟩ := q
        rw [hsc] at h
        injection h with h
        injection h with h1 h23
        subst h1
        simp [ih ctr rest' ds2 ctr'' hsc]

theorem reroll_unc_scan_len (rng : RNG) (comp : ℚ → ℚ → Bool) (target : ℚ) (die : Value)
    (fuel : ℕ) :
    ∀ (l : List ℚ) (ctr : ℕ) (rolls' ds : List ℚ) (c : ℕ),
      reroll_unc_scan rng comp target die fuel l ctr = some (.ok (rolls', ds, c)) →
        rolls'.length = l.length := by
  intro l
  induction l with
  | nil =>
    intro ctr rolls' ds c h
    simp only [reroll_unc_scan] at h
    injection h with h
    injection h with h
    injection h with h1 h23
    subst h1
    rfl
  | cons v rest ih =>
    intro ctr rolls' ds c h
    rw [reroll_unc_scan] at h
    cases hp : reroll_pos rng comp target die fuel v ctr with
    | none => rw [hp] at h; simp at h
    | some res =>
      rw [hp] at h
      cases res with
      | error e => simp at h
      | ok p =>
        obtain ⟨w, ds1, ctr'⟩ := p
        dsimp only [] at h
        cases hsc : reroll_unc_scan rng comp target die fuel rest ctr' with
        | none => rw [hsc] at h; simp at h
        | some res2 =>
          rw [hsc] at h
          cases res2 with
          | error e => simp at h
          | ok q =>
            obtain ⟨rest', ds2, ctr''⟩ := q
            dsimp only [] at h
            injection h with h
            injection h with h
            injection h with h1 h23
            subst h1
            simp [ih ctr' rest' ds2 ctr'' hsc]

/-- C5 (counterexample): `take_high` with the negative argument `-1` on a
two-element roll empties it, so `len(result.rolls)` is 0, not
`min(2, -1) = -1`. -/
theorem c5_counterexample_negative_keep :
    (take_high ⟨[1, 2], .num 2, []⟩ (-1)).map (fun r => (r.rolls.length : ℤ)) = .ok 0 ∧
      min ((2 : ℤ)) (-1) ≠ 0 :=
  ⟨rfl, by decide⟩

/-- C5 (amended): for every Roll of length `n`, the keep/drop, floor/ceil,
reroll and threshold operators lose no value: whenever they succeed,
`len(result.rolls) + len(result.discards) ≥ n`; and for keep-high /
keep-low with a *nonnegative* argument `k`, `len(result.rolls) =
min(n, k)` (a negative `k` empties the roll instead). -/
theorem c5_discard_accounting :
    (∀ (r : RollS) (k : ℤ) (r' : RollS), take_high r k = .ok r' →
      r'.rolls.length + r'.discards.length ≥ r.rolls.length ∧
        (0 ≤ k → (r'.rolls.length : ℤ) = min (r.rolls.length : ℤ) k)) ∧
    (∀ (r : RollS) (k : ℤ) (r' : RollS), take_low r k = .ok r' →
      r'.rolls.length + r'.discards.length ≥ r.rolls.length ∧
        (0 ≤ k → (r'.rolls.length : ℤ) = min (r.rolls.length : ℤ) k)) ∧
    (∀ (r : RollS) (k : ℤ),
      (threshold_lower r k).rolls.length + (threshold_lower r k).discards.length ≥
        r.rolls.length) ∧
    (∀ (r : RollS) (k : ℤ),
      (threshold_upper r k).rolls.length + (threshold_upper r k).discards.length ≥
        r.rolls.length) ∧
    (∀ (r : RollS) (b : ℚ),
      (floor_val r b).rolls.length + (floor_val r b).discards.length ≥ r.rolls.length) ∧
    (∀ (r : RollS) (b : ℚ),
      (ceil_val r b).rolls.length + (ceil_val r b).discards.length ≥ r.rolls.length) ∧
    (∀ (rng : RNG) (ctr : ℕ) (r : RollS) (t : ℚ) (comp : ℚ → ℚ → Bool) (r' : RollS) (c : ℕ),
      reroll_once rng ctr r t comp = .ok (r', c) →
        r'.rolls.length + r'.discards.length ≥ r.rolls.length) ∧
    (∀ (rng : RNG) (ctr fuel : ℕ) (r : RollS) (t : ℚ) (comp : ℚ → ℚ → Bool)
        (r' : RollS) (c : ℕ),
      reroll_unconditional rng ctr fuel r t comp = some (.ok (r', c)) →
        r'.rolls.length + r'.discards.length ≥ r.rolls.length) := by
  refine ⟨take_high_spec, take_low_spec, ?_, ?_, ?_, ?_, ?_, ?_⟩
  · intro r k
    simp only [threshold_lower, rollInit, length_sortList, List.length_map,
      List.length_append]
    omega
  · intro r k
    simp only [threshold_upper, rollInit, length_sortList, List.length_map,
      List.length_append]
    omega
  · intro r b
    simp only [floor_val, RollS.copy, length_sortList, List.length_append,
      clamp_low_scan_len]
    omega
  · intro r b
    simp only [ceil_val, RollS.copy, length_sortList, List.length_append,
      clamp_high_scan_len]
    omega
  · intro rng ctr r t comp r' c h
    simp only [reroll_once, RollS.copy, bind, Except.bind] at h
    cases hsc : reroll_once_scan rng comp t r.die r.rolls ctr with
    | error e => rw [hsc] at h; simp at h
    | ok q =>
      obtain ⟨rolls', ds, ctr'⟩ := q
      rw [hsc] at h
      injection h with h
      injection h with h1 h2
      subst h1
      simp only [length_sortList, List.length_append,
        reroll_once_scan_len rng comp t r.die r.rolls ctr rolls' ds ctr' hsc]
      omega
  · intro rng ctr fuel r t comp r' c h
    simp only [reroll_unconditional, RollS.copy] at h
    cases hsc : reroll_unc_scan rng comp t r.die fuel r.rolls ctr with
    | none => rw [hsc] at h; simp at h
    | some res =>
      rw [hsc] at h
      cases res with
      | error e => simp at h
      | ok q =>
        obtain ⟨rolls', ds, ctr'⟩ := q
        injection h with h
        injection h with h
        injection h with h1 h2
        subst h1
        simp only [length_sortList, List.length_append,
          reroll_unc_scan_len rng comp t r.die fuel r.rolls ctr rolls' ds ctr' hsc]
        omega

/-- C5 (witness): keeping the top 2 of 3 rolls. -/
theorem c5_discard_accounting_witness :
    (RollS.mk [2, 3] (.num 6) [1]).rolls.length +
        (RollS.mk [2, 3] (.num 6) [1]).discards.length ≥
      (RollS.mk [1, 2, 3] (.num 6) []).rolls.length ∧
    (0 ≤ (2 : ℤ) → ((RollS.mk [2, 3] (.num 6) [1]).rolls.length : ℤ) =
      min ((RollS.mk [1, 2, 3] (.num 6) []).rolls.length : ℤ) 2) :=
  c5_discard_accounting.1 ⟨[1, 2, 3], .num 6, []⟩ 2 ⟨[2, 3], .num 6, [1]⟩ rfl

/-! ## C7 -/

theorem sorted_sortList (l : List ℚ) : List.Sorted (· ≤ ·) (sortList l) :=
  List.sorted_insertionSort _ l

theorem take_append_drop_sublist {α : Type} (l : List α) (a m : ℕ) (h : a ≤ m) :
    List.Sublist (l.take a ++ l.drop m) l := by
  conv_rhs => rw [← List.take_append_drop a l]
  refine List.Sublist.append_left ?_ _
  have hd : l.drop m = (l.drop a).drop (m - a) := by
    rw [List.drop_drop]
    congr 1
    omega
  rw [hd]
  exact List.drop_sublist _ _

theorem discard_sorted (r : RollS) (idx : PyIndex) (r' : RollS)
    (hs : List.Sorted (· ≤ ·) r.rolls) (h : r.discard idx = .ok r') :
    List.Sorted (· ≤ ·) r'.rolls := by
  cases idx with
  | int i =>
    unfold RollS.discard at h
    dsimp only [] at h
    cases hn : normIndex r.rolls.length i with
    | none => rw [hn] at h; simp at h
    | some j =>
      rw [hn] at h
      injection h with h
      subst h
      exact hs.sublist (List.eraseIdx_sublist _ _)
  | slice start stop =>
    unfold RollS.discard at h
    dsimp only [] at h
    injection h with h
    subst h
    exact hs.sublist (take_append_drop_sublist _ _ _ (Nat.le_max_left _ _))

theorem replace_sorted (r : RollS) (i : ℤ) (new : ℚ) (r' : RollS)
    (h : r.replace false i new = .ok r') : List.Sorted (· ≤ ·) r'.rolls := by
  unfold RollS.replace at h
  cases hn : normIndex r.rolls.length i with
  | none => rw [hn] at h; simp at h
  | some j =>
    rw [hn] at h
    injection h with h
    subst h
    exact sorted_sortList _

theorem roll_basic_sorted (rng : RNG) (ctr : ℕ) (number : ℚ) (sides : Value)
    (r : RollS) (c : ℕ) (h : roll_basic rng ctr number sides = .ok (r, c)) :
    List.Sorted (· ≤ ·) r.rolls := by
  simp only [roll_basic, bind, Except.bind] at h
  cases hp : pyRange number with
  | error e => rw [hp] at h; simp at h
  | ok n =>
    rw [hp] at h
    dsimp only [] at h
    cases hd : dice_rolls rng sides n ctr with
    | error e => rw [hd] at h; simp at h
    | ok p =>
      rw [hd] at h
      injection h with h
      rw [show r = (rollInit p.1 sides) from congrArg Prod.fst h.symm]
      exact sorted_sortList _

theorem roll_critical_sorted (rng : RNG) (ctr : ℕ) (number : ℚ) (sides : Value)
    (r : RollS) (c : ℕ) (h : roll_critical rng ctr number sides = .ok (r, c)) :
    List.Sorted (· ≤ ·) r.rolls := by
  simp only [roll_critical, bind, Except.bind] at h
  cases hp : pyRange (2 * number) with
  | error e => rw [hp] at h; simp at h
  | ok n =>
    rw [hp] at h
    dsimp only [] at h
    cases hd : dice_rolls rng sides n ctr with
    | error e => rw [hd] at h; simp at h
    | ok p =>
      rw [hd] at h
      injection h with h
      rw [show r = (rollInit p.1 sides) from congrArg Prod.fst h.symm]
      exact sorted_sortList _

theorem except_match_ok {α β γ : Type} (X : Except γ α) (f : α → Except γ β) (b : β)
    (h : (match X with
          | Except.error err => Except.error err
          | Except.ok v => f v) = Except.ok b) :
    ∃ v, X = Except.ok v ∧ f v = Except.ok b := by
  cases X with
  | error e => exact Except.noConfusion h
  | ok v => exact ⟨v, rfl, h⟩

theorem sorted_of_ok_rollInit {rolls' : List ℚ} {die' : Value} {ctr' : ℕ} {r : RollS}
    {c : ℕ}
    (h : (Except.ok (rollInit rolls' die', ctr') : Except EErr (RollS × ℕ)) =
      Except.ok (r, c)) : List.Sorted (· ≤ ·) r.rolls := by
  injection h with h
  rw [show r = rollInit rolls' die' from congrArg Prod.fst h.symm]
  exact sorted_sortList _

theorem roll_average_sorted (rng : RNG) (ctr : ℕ) (number : ℚ) (sides : Value)
    (r : RollS) (c : ℕ) (h : roll_average rng ctr number sides = .ok (r, c)) :
    List.Sorted (· ≤ ·) r.rolls := by
  simp only [roll_average, bind, Except.bind] at h
  cases sides with
  | tup l =>
    dsimp only [] at h
    by_cases h0 : l.length = 0
    · rw [if_pos h0] at h
      exact Except.noConfusion h
    · rw [if_neg h0] at h
      cases hp : pyRange number with
      | error e =>
        rw [hp] at h
        exact Except.noConfusion h
      | ok n =>
        rw [hp] at h
        exact sorted_of_ok_rollInit h
  | roll rolls die discards =>
    dsimp only [] at h
    by_cases h0 : rolls.length = 0
    · rw [if_pos h0] at h
      exact Except.noConfusion h
    · rw [if_neg h0] at h
      cases hp : pyRange number with
      | error e =>
        rw [hp] at h
        exact Except.noConfusion h
      | ok n =>
        rw [hp] at h
        exact sorted_of_ok_rollInit h
  | num q =>
    dsimp only [] at h
    by_cases h0 : q.den = 1
    · rw [if_pos h0] at h
      cases hp : pyRange number with
      | error e =>
        rw [hp] at h
        exact Except.noConfusion h
      | ok n =>
        rw [hp] at h
        exact sorted_of_ok_rollInit h
    · rw [if_neg h0] at h
      exact Except.noConfusion h

theorem roll_max_sorted (rng : RNG) (ctr : ℕ) (number : ℚ) (sides : Value)
    (r : RollS) (c : ℕ) (h : roll_max rng ctr number sides = .ok (r, c)) :
    List.Sorted (· ≤ ·) r.rolls := by
  simp only [roll_max, bind, Except.bind] at h
  cases sides with
  | tup l =>
    dsimp only [] at h
    cases hv : listMax l with
    | error e =>
      rw [hv] at h
      exact Except.noConfusion h
    | ok v =>
      rw [hv] at h
      dsimp only [] at h
      cases hp : pyRange number with
      | error e =>
        rw [hp] at h
        exact Except.noConfusion h
      | ok n =>
        rw [hp] at h
        exact sorted_of_ok_rollInit h
  | roll rolls die discards =>
    dsimp only [] at h
    cases hv : listMax rolls with
    | error e =>
      rw [hv] at h
      exact Except.noConfusion h
    | ok v =>
      rw [hv] at h
      dsimp only [] at h
      cases hp : pyRange number with
      | error e =>
        rw [hp] at h
        exact Except.noConfusion h
      | ok n =>
        rw [hp] at h
        exact sorted_of_ok_rollInit h
  | num q =>
    dsimp only [] at h
    cases hp : pyRange number with
    | error e =>
      rw [hp] at h
      exact Except.noConfusion h
    | ok n =>
      rw [hp] at h
      exact sorted_of_ok_rollInit h

theorem take_high_sorted (r : RollS) (k : ℤ) (r' : RollS)
    (hs : List.Sorted (· ≤ ·) r.rolls) (h : take_high r k = .ok r') :
    List.Sorted (· ≤ ·) r'.rolls := by
  unfold take_high RollS.copy at h
  by_cases hlen : (r.rolls.length : ℤ) > k
  · rw [if_pos hlen] at h
    exact discard_sorted r _ r' hs h
  · rw [if_neg hlen] at h
    injection h with h
    subst h
    exact hs

theorem take_low_sorted (r : RollS) (k : ℤ) (r' : RollS)
    (hs : List.Sorted (· ≤ ·) r.rolls) (h : take_low r k = .ok r') :
    List.Sorted (· ≤ ·) r'.rolls := by
  unfold take_low RollS.copy at h
  by_cases hlen : (r.rolls.length : ℤ) > k
  · rw [if_pos hlen] at h
    exact discard_sorted r _ r' hs h
  · rw [if_neg hlen] at h
    injection h with h
    subst h
    exact hs

theorem reroll_once_sorted (rng : RNG) (ctr : ℕ) (r : RollS) (t : ℚ)
    (comp : ℚ → ℚ → Bool) (r' : RollS) (c : ℕ)
    (h : reroll_once rng ctr r t comp = .ok (r', c)) :
    List.Sorted (· ≤ ·) r'.rolls := by
  simp only [reroll_once, RollS.copy, bind, Except.bind] at h
  cases hsc : reroll_once_scan rng comp t r.die r.rolls ctr with
  | error e => rw [hsc] at h; simp at h
  | ok q =>
    obtain ⟨rolls', ds, ctr'⟩ := q
    rw [hsc] at h
    injection h with h
    rw [show r' = { r with rolls := sortList rolls', discards := r.discards ++ ds }
      from congrArg Prod.fst h.symm]
    exact sorted_sortList _

theorem reroll_unconditional_sorted (rng : RNG) (ctr fuel : ℕ) (r : RollS) (t : ℚ)
    (comp : ℚ → ℚ → Bool) (r' : RollS) (c : ℕ)
    (h : reroll_unconditional rng ctr fuel r t comp = some (.ok (r', c))) :
    List.Sorted (· ≤ ·) r'.rolls := by
  simp only [reroll_unconditional, RollS.copy] at h
  cases hsc : reroll_unc_scan rng comp t r.die fuel r.rolls ctr with
  | none => rw [hsc] at h; simp at h
  | some res =>
    rw [hsc] at h
    cases res with
    | error e => simp at h
    | ok q =>
      obtain ⟨rolls', ds, ctr'⟩ := q
      injection h with h
      injection h with h
      rw [show r' = { r with rolls := sortList rolls', discards := r.discards ++ ds }
        from congrArg Prod.fst h.symm]
      exact sorted_sortList _

/-- C7: every `Roll` produced by construction, discard, sorting-enabled
replace, or any roll-producing or roll-modifying operator has its active
rolls non-decreasing; the operators that scan in place with sorting
suspended (`reroll_*`, `floor_val`, `ceil_val`) restore the sorted order
before returning. -/
theorem c7_rolls_always_sorted :
    (∀ (rolls : List ℚ) (die : Value),
      List.Sorted (· ≤ ·) (rollInit rolls die).rolls) ∧
    (∀ (r : RollS) (idx : PyIndex) (r' : RollS), List.Sorted (· ≤ ·) r.rolls →
      r.discard idx = .ok r' → List.Sorted (· ≤ ·) r'.rolls) ∧
    (∀ (r : RollS) (i : ℤ) (new : ℚ) (r' : RollS),
      r.replace false i new = .ok r' → List.Sorted (· ≤ ·) r'.rolls) ∧
    (∀ (rng : RNG) (ctr : ℕ) (number : ℚ) (sides : Value) (r : RollS) (c : ℕ),
      roll_basic rng ctr number sides = .ok (r, c) → List.Sorted (· ≤ ·) r.rolls) ∧
    (∀ (rng : RNG) (ctr : ℕ) (number : ℚ) (sides : Value) (r : RollS) (c : ℕ),
      roll_critical rng ctr number sides = .ok (r, c) → List.Sorted (· ≤ ·) r.rolls) ∧
    (∀ (rng : RNG) (ctr : ℕ) (number : ℚ) (sides : Value) (r : RollS) (c : ℕ),
      roll_average rng ctr number sides = .ok (r, c) → List.Sorted (· ≤ ·) r.rolls) ∧
    (∀ (rng : RNG) (ctr : ℕ) (number : ℚ) (sides : Value) (r : RollS) (c : ℕ),
      roll_max rng ctr number sides = .ok (r, c) → List.Sorted (· ≤ ·) r.rolls) ∧
    (∀ (r : RollS) (k : ℤ) (r' : RollS), List.Sorted (· ≤ ·) r.rolls →
      take_high r k = .ok r' → List.Sorted (· ≤ ·) r'.rolls) ∧
    (∀ (r : RollS) (k : ℤ) (r' : RollS), List.Sorted (· ≤ ·) r.rolls →
      take_low r k = .ok r' → List.Sorted (· ≤ ·) r'.rolls) ∧
    (∀ (r : RollS) (k : ℤ), List.Sorted (· ≤ ·) (threshold_lower r k).rolls) ∧
    (∀ (r : RollS) (k : ℤ), List.Sorted (· ≤ ·) (threshold_upper r k).rolls) ∧
    (∀ (r : RollS) (b : ℚ), List.Sorted (· ≤ ·) (floor_val r b).rolls) ∧
    (∀ (r : RollS) (b : ℚ), List.Sorted (· ≤ ·) (ceil_val r b).rolls) ∧
    (∀ (rng : RNG) (ctr : ℕ) (r : RollS) (t : ℚ) (comp : ℚ → ℚ → Bool) (r' : RollS) (c : ℕ),
      reroll_once rng ctr r t comp = .ok (r', c) → List.Sorted (· ≤ ·) r'.rolls) ∧
    (∀ (rng : RNG) (ctr fuel : ℕ) (r : RollS) (t : ℚ) (comp : ℚ → ℚ → Bool)
        (r' : RollS) (c : ℕ),
      reroll_unconditional rng ctr fuel r t comp = some (.ok (r', c)) →
        List.Sorted (· ≤ ·) r'.rolls) := by
  refine ⟨fun rolls die => sorted_sortList _,
    fun r idx r' hs h => discard_sorted r idx r' hs h,
    fun r i new r' h => replace_sorted r i new r' h,
    roll_basic_sorted, roll_critical_sorted, roll_average_sorted, roll_max_sorted,
    fun r k r' hs h => take_high_sorted r k r' hs h,
    fun r k r' hs h => take_low_sorted r k r' hs h,
    fun r k => sorted_sortList _,
    fun r k => sorted_sortList _,
    fun r b => sorted_sortList _,
    fun r b => sorted_sortList _,
    reroll_once_sorted, reroll_unconditional_sorted⟩

/-- C7 (witness): discarding the middle of `[1, 2, 3]` stays sorted, and
keeping the top 2 stays sorted. -/
theorem c7_rolls_always_sorted_witness :
    List.Sorted (· ≤ ·) (RollS.mk [1, 3] (.num 6) [2]).rolls ∧
    List.Sorted (· ≤ ·) (RollS.mk [2, 3] (.num 6) [1]).rolls :=
  ⟨c7_rolls_always_sorted.2.1 ⟨[1, 2, 3], .num 6, []⟩ (.int 1) ⟨[1, 3], .num 6, [2]⟩
      (by decide) rfl,
    c7_rolls_always_sorted.2.2.2.2.2.2.2.1 ⟨[1, 2, 3], .num 6, []⟩ 2 ⟨[2, 3], .num 6, [1]⟩
      (by decide) rfl⟩


/-! ## C6 -/

section RerollLemmas

variable (rng : RNG) (comp : ℚ → ℚ → Bool) (target : ℚ) (die : Value)

theorem reroll_pos_stop (f : ℕ) (v : ℚ) (ctr : ℕ) (hc : comp v target = false) :
    reroll_pos rng comp target die f v ctr = some (.ok (v, [], ctr)) := by
  rw [reroll_pos.eq_def]
  simp [hc]

theorem reroll_pos_zero (v : ℚ) (ctr : ℕ) (hc : comp v target = true) :
    reroll_pos rng comp target die 0 v ctr = none := by
  rw [reroll_pos.eq_def]
  simp [hc]

theorem reroll_pos_step_err (g : ℕ) (v : ℚ) (ctr : ℕ) (hc : comp v target = true)
    (e : EErr) (hsd : single_die rng ctr die = .error e) :
    reroll_pos rng comp target die (g + 1) v ctr = some (.error e) := by
  rw [reroll_pos.eq_def]
  simp [hc, hsd]

theorem reroll_pos_step_ok (g : ℕ) (v : ℚ) (ctr : ℕ) (hc : comp v target = true)
    (v' : ℚ) (ctr' : ℕ) (hsd : single_die rng ctr die = .ok (v', ctr')) :
    reroll_pos rng comp target die (g + 1) v ctr =
      (reroll_pos rng comp target die g v' ctr').map
        (·.map fun (w, ds, c) => (w, v :: ds, c)) := by
  rw [reroll_pos.eq_def]
  simp [hc, hsd]

theorem reroll_pos_mono : ∀ (f : ℕ) (v : ℚ) (ctr : ℕ) (res : Except EErr (ℚ × List ℚ × ℕ)),
    reroll_pos rng comp target die f v ctr = some res →
    ∀ f', f ≤ f' → reroll_pos rng comp target die f' v ctr = some res := by
  intro f
  induction f with
  | zero =>
    intro v ctr res h f' hf
    cases hc : comp v target with
    | false =>
      rw [reroll_pos_stop rng comp target die 0 v ctr hc] at h
      rw [reroll_pos_stop rng comp target die f' v ctr hc]
      exact h
    | true =>
      rw [reroll_pos_zero rng comp target die v ctr hc] at h
      exact absurd h (by simp)
  | succ g ih =>
    intro v ctr res h f' hf
    cases hc : comp v target with
    | false =>
      rw [reroll_pos_stop rng comp target die (g + 1) v ctr hc] at h
      rw [reroll_pos_stop rng comp target die f' v ctr hc]
      exact h
    | true =>
      obtain ⟨g', rfl⟩ : ∃ g', f' = g' + 1 := ⟨f' - 1, by omega⟩
      cases hsd : single_die rng ctr die with
      | error e =>
        rw [reroll_pos_step_err rng comp target die g v ctr hc e hsd] at h
        rw [reroll_pos_step_err rng comp target die g' v ctr hc e hsd]
        exact h
      | ok p =>
        obtain ⟨v', ctr'⟩ := p
        rw [reroll_pos_step_ok rng comp target die g v ctr hc v' ctr' hsd] at h
        rw [reroll_pos_step_ok rng comp target die g' v ctr hc v' ctr' hsd]
        cases hrec : reroll_pos rng comp target die g v' ctr' with
        | none => rw [hrec] at h; exact absurd h (by simp)
        | some r2 =>
          rw [hrec] at h
          rw [ih v' ctr' r2 hrec g' (by omega)]
          exact h

theorem reroll_pos_total_aux (hok : drawsOk rng die) :
    ∀ (k : ℕ) (v : ℚ) (ctr n : ℕ), ctr ≤ n → n - ctr = k →
      (∃ u, single_die rng n die = .ok (u, n + 1) ∧ comp u target = false) →
      ∃ f w ds c, reroll_pos rng comp target die f v ctr = some (.ok (w, ds, c)) ∧ ctr ≤ c := by
  intro k
  induction k with
  | zero =>
    intro v ctr n hle hk hstop
    cases hc : comp v target with
    | false =>
      exact ⟨0, v, [], ctr, reroll_pos_stop rng comp target die 0 v ctr hc, le_refl _⟩
    | true =>
      obtain ⟨u, hu, hcu⟩ := hstop
      have hn : n = ctr := by omega
      subst hn
      refine ⟨1, u, [v], n + 1, ?_, by omega⟩
      rw [reroll_pos_step_ok rng comp target die 0 v n hc u (n + 1) hu,
        reroll_pos_stop rng comp target die 0 u (n + 1) hcu]
      rfl
  | succ k ih =>
    intro v ctr n hle hk hstop
    cases hc : comp v target with
    | false =>
      exact ⟨0, v, [], ctr, reroll_pos_stop rng comp target die 0 v ctr hc, le_refl _⟩
    | true =>
      obtain ⟨v1, hv1⟩ := hok ctr
      obtain ⟨f, w, ds, c, hrec, hcc⟩ := ih v1 (ctr + 1) n (by omega) (by omega) hstop
      refine ⟨f + 1, w, v :: ds, c, ?_, by omega⟩
      rw [reroll_pos_step_ok rng comp target die f v ctr hc v1 (ctr + 1) hv1, hrec]
      rfl

theorem reroll_pos_total (hok : drawsOk rng die)
    (hstop : eventuallyStops rng die comp target) (v : ℚ) (ctr : ℕ) :
    ∃ f w ds c, reroll_pos rng comp target die f v ctr = some (.ok (w, ds, c)) ∧ ctr ≤ c := by
  obtain ⟨n, hn, hu⟩ := hstop ctr
  exact reroll_pos_total_aux rng comp target die hok (n - ctr) v ctr n hn rfl hu

theorem scan_cons_none (f : ℕ) (v : ℚ) (rest : List ℚ) (ctr : ℕ)
    (hp : reroll_pos rng comp target die f v ctr = none) :
    reroll_unc_scan rng comp target die f (v :: rest) ctr = none := by
  rw [reroll_unc_scan, hp]

theorem scan_cons_err (f : ℕ) (v : ℚ) (rest : List ℚ) (ctr : ℕ) (e : EErr)
    (hp : reroll_pos rng comp target die f v ctr = some (.error e)) :
    reroll_unc_scan rng comp target die f (v :: rest) ctr = some (.error e) := by
  rw [reroll_unc_scan, hp]

theorem scan_cons_ok_ok (f : ℕ) (v : ℚ) (rest : List ℚ) (ctr : ℕ) (w : ℚ)
    (ds : List ℚ) (ctr' : ℕ) (rest' ds' : List ℚ) (c : ℕ)
    (hp : reroll_pos rng comp target die f v ctr = some (.ok (w, ds, ctr')))
    (hrest : reroll_unc_scan rng comp target die f rest ctr' = some (.ok (rest', ds', c))) :
    reroll_unc_scan rng comp target die f (v :: rest) ctr =
      some (.ok (w :: rest', ds ++ ds', c)) := by
  rw [reroll_unc_scan, hp]
  dsimp only []
  rw [hrest]

theorem scan_mono : ∀ (l : List ℚ) (f : ℕ) (ctr : ℕ) (res : Except EErr (List ℚ × List ℚ × ℕ)),
    reroll_unc_scan rng comp target die f l ctr = some res →
    ∀ f', f ≤ f' → reroll_unc_scan rng comp target die f' l ctr = some res := by
  intro l
  induction l with
  | nil => intro f ctr res h f' hf; rw [reroll_unc_scan] at h ⊢; exact h
  | cons v rest ih =>
    intro f ctr res h f' hf
    cases hp : reroll_pos rng comp target die f v ctr with
    | none => rw [scan_cons_none rng comp target die f v rest ctr hp] at h; exact absurd h (by simp)
    | some pres =>
      have hp' := reroll_pos_mono rng comp target die f v ctr pres hp f' hf
      cases pres with
      | error e =>
        rw [scan_cons_err rng comp target die f v rest ctr e hp] at h
        rw [scan_cons_err rng comp target die f' v rest ctr e hp']
        exact h
      | ok p =>
        obtain ⟨w, ds, ctr'⟩ := p
        rw [reroll_unc_scan, hp] at h
        dsimp only [] at h
        cases hrest : reroll_unc_scan rng comp target die f rest ctr' with
        | none => rw [hrest] at h; exact absurd h (by simp)
        | some rres =>
          have hrest' := ih f ctr' rres hrest f' hf
          rw [hrest] at h
          rw [reroll_unc_scan, hp']
          dsimp only []
          rw [hrest']
          exact h

theorem scan_total (hok : drawsOk rng die) (hstop : eventuallyStops rng die comp target) :
    ∀ (l : List ℚ) (ctr : ℕ),
      ∃ f rolls' ds c, reroll_unc_scan rng comp target die f l ctr =
        some (.ok (rolls', ds, c)) := by
  intro l
  induction l with
  | nil => exact fun ctr => ⟨0, [], [], ctr, rfl⟩
  | cons v rest ih =>
    intro ctr
    obtain ⟨f1, w, ds, c1, hp, hc1⟩ := reroll_pos_total rng comp target die hok hstop v ctr
    obtain ⟨f2, rest', ds', c2, hrest⟩ := ih c1
    refine ⟨max f1 f2, w :: rest', ds ++ ds', c2, ?_⟩
    exact scan_cons_ok_ok rng comp target die (max f1 f2) v rest ctr w ds c1 rest' ds' c2
      (reroll_pos_mono rng comp target die f1 v ctr _ hp (max f1 f2) (le_max_left _ _))
      (scan_mono rng comp target die rest f2 c1 _ hrest (max f1 f2) (le_max_right _ _))

end RerollLemmas


theorem unc_of_scan_ok (rng : RNG) (comp : ℚ → ℚ → Bool) (target : ℚ) (r : RollS)
    (ctr f : ℕ) (rolls' ds : List ℚ) (c : ℕ)
    (hsc : reroll_unc_scan rng comp target r.die f r.rolls ctr = some (.ok (rolls', ds, c))) :
    reroll_unconditional rng ctr f r target comp =
      some (.ok ({ r with rolls := sortList rolls', discards := r.discards ++ ds }, c)) := by
  unfold reroll_unconditional RollS.copy
  rw [hsc]

theorem c6_guard_higher (rng : RNG) (ctr fuel : ℕ) (r : RollS) (target mn : ℚ)
    (hmin : die_min_default1 r.die = .ok mn) (hlt : target < mn) :
    reroll_unconditional_higher rng ctr fuel r target = some (.error .argValue) := by
  unfold reroll_unconditional_higher
  rw [hmin]
  show (if target < mn then some (Except.error EErr.argValue)
    else reroll_unconditional rng ctr fuel r target fun x y => x > y) = _
  rw [if_pos hlt]

theorem c6_term_higher (rng : RNG) (ctr : ℕ) (r : RollS) (target mn : ℚ)
    (hmin : die_min_default1 r.die = .ok mn) (hge : ¬ target < mn)
    (hok : drawsOk rng r.die)
    (hstop : eventuallyStops rng r.die (fun x y => x > y) target) :
    ∃ fuel r' c, reroll_unconditional_higher rng ctr fuel r target = some (.ok (r', c)) := by
  obtain ⟨f, rolls', ds, c, hsc⟩ :=
    scan_total rng (fun x y => x > y) target r.die hok hstop r.rolls ctr
  refine ⟨f, { r with rolls := sortList rolls', discards := r.discards ++ ds }, c, ?_⟩
  unfold reroll_unconditional_higher
  rw [hmin]
  show (if target < mn then some (Except.error EErr.argValue)
    else reroll_unconditional rng ctr f r target fun x y => x > y) = _
  rw [if_neg hge]
  exact unc_of_scan_ok rng _ target r ctr f rolls' ds c hsc


theorem c6_guard_lower (rng : RNG) (ctr fuel : ℕ) (r : RollS) (target mx : ℚ)
    (hmax : die_max_or_self r.die = .ok mx) (hgt : target > mx) :
    reroll_unconditional_lower rng ctr fuel r target = some (.error .argValue) := by
  unfold reroll_unconditional_lower
  rw [hmax]
  show (if target > mx then some (Except.error EErr.argValue)
    else reroll_unconditional rng ctr fuel r target fun x y => x < y) = _
  rw [if_pos hgt]

theorem c6_term_lower (rng : RNG) (ctr : ℕ) (r : RollS) (target mx : ℚ)
    (hmax : die_max_or_self r.die = .ok mx) (hle : ¬ target > mx)
    (hok : drawsOk rng r.die)
    (hstop : eventuallyStops rng r.die (fun x y => x < y) target) :
    ∃ fuel r' c, reroll_unconditional_lower rng ctr fuel r target = some (.ok (r', c)) := by
  obtain ⟨f, rolls', ds, c, hsc⟩ :=
    scan_total rng (fun x y => x < y) target r.die hok hstop r.rolls ctr
  refine ⟨f, { r with rolls := sortList rolls', discards := r.discards ++ ds }, c, ?_⟩
  unfold reroll_unconditional_lower
  rw [hmax]
  show (if target > mx then some (Except.error EErr.argValue)
    else reroll_unconditional rng ctr f r target fun x y => x < y) = _
  rw [if_neg hle]
  exact unc_of_scan_ok rng _ target r ctr f rolls' ds c hsc

/-- C6: `reroll_unconditional_higher(roll, target)` raises an
`ArgumentValueError` (without rerolling) whenever `target < min(die)` -
where `min(die)` is 1 for an integer-sided die - and
`reroll_unconditional_lower` raises whenever `target > max(die)`
(`max(die)` being the die itself for an integer-sided die); otherwise no
error is raised and the reroll loop terminates normally, provided the
random source keeps producing draws and eventually yields a value that
stops the comparison (true of the uniform source with probability 1). -/
theorem c6_guards :
    (∀ q : ℚ, die_min_default1 (.num q) = .ok 1) ∧
    (∀ q : ℚ, die_max_or_self (.num q) = .ok q) ∧
    (∀ (rng : RNG) (ctr fuel : ℕ) (r : RollS) (target mn : ℚ),
      die_min_default1 r.die = .ok mn → target < mn →
      reroll_unconditional_higher rng ctr fuel r target = some (.error .argValue)) ∧
    (∀ (rng : RNG) (ctr fuel : ℕ) (r : RollS) (target mx : ℚ),
      die_max_or_self r.die = .ok mx → target > mx →
      reroll_unconditional_lower rng ctr fuel r target = some (.error .argValue)) ∧
    (∀ (rng : RNG) (ctr : ℕ) (r : RollS) (target mn : ℚ),
      die_min_default1 r.die = .ok mn → ¬ target < mn →
      drawsOk rng r.die → eventuallyStops rng r.die (fun x y => x > y) target →
      ∃ fuel r' c, reroll_unconditional_higher rng ctr fuel r target = some (.ok (r', c))) ∧
    (∀ (rng : RNG) (ctr : ℕ) (r : RollS) (target mx : ℚ),
      die_max_or_self r.die = .ok mx → ¬ target > mx →
      drawsOk rng r.die → eventuallyStops rng r.die (fun x y => x < y) target →
      ∃ fuel r' c, reroll_unconditional_lower rng ctr fuel r target = some (.ok (r', c))) :=
  ⟨fun _ => rfl, fun _ => rfl, c6_guard_higher, c6_guard_lower, c6_term_higher, c6_term_lower⟩

theorem c6_witness_draw (j : ℕ) :
    single_die (constIntRng 1) j (.num 4) = .ok (1, j + 1) := rfl

/-- C6 (witness): a d4 with target 0 trips the higher-guard; with target
2 and a source always drawing 1, the loop terminates. -/
theorem c6_guards_witness :
    reroll_unconditional_higher (constIntRng 1) 0 7 ⟨[2], .num 4, []⟩ 0 =
      some (.error .argValue) ∧
    (∃ fuel r' c, reroll_unconditional_higher (constIntRng 1) 0 fuel ⟨[4], .num 4, []⟩ 2 =
      some (.ok (r', c))) := by
  constructor
  · exact c6_guards.2.2.1 (constIntRng 1) 0 7 ⟨[2], .num 4, []⟩ 0 1 rfl (by norm_num)
  · refine c6_guards.2.2.2.2.1 (constIntRng 1) 0 ⟨[4], .num 4, []⟩ 2 1 rfl (by norm_num)
      (fun j => ⟨1, c6_witness_draw j⟩) (fun j => ⟨j, le_refl j, 1, c6_witness_draw j, ?_⟩)
    norm_num


/-! ## C8 -/

/-- C8 (counterexample): `"1)+(2"` has unbalanced (badly nested)
parentheses, yet tokenization succeeds without any `ParseError`, because
the pre-check only compares the counts of `'('` and `')'`. -/
theorem c8_counterexample_nesting :
    parenScan ['1', ')', '+', '(', '2'] 0 = false ∧
    tokensFn ['1', ')', '+', '(', '2'] =
      some (.ok [.int 1, .rparen, .op .add, .lparen, .int 2]) :=
  ⟨rfl, rfl⟩

/-- C8 (amended): tokenization checks only the parenthesis *counts*,
before scanning: when `'('` outnumbers `')'` it raises the "unclosed"
`ParseError` with the offset of the *first* `'('`, and when `')'`
outnumbers `'('` it raises the distinct "unopened" `ParseError` with the
offset of the *last* `')'`; in particular `tokenize("1+4)")` raises at
offset 3 and `tokenize("(1d4d2")` at offset 0.  (Equal-count inputs with
bad nesting can tokenize successfully, and the flagged paren need not be
the unmatched one.) -/
theorem c8_paren_count_precheck :
    (∀ s : List Char, s.count '(' > s.count ')' →
      tokensFn s = some (.error (.unclosedParen (pyFindIdx s '(')))) ∧
    (∀ s : List Char, s.count ')' > s.count '(' →
      tokensFn s = some (.error (.unopenedParen (pyRFindIdx s ')')))) ∧
    (∀ o1 o2 : ℕ, PErr.unclosedParen o1 ≠ PErr.unopenedParen o2) ∧
    tokensFn ['1', '+', '4', ')'] = some (.error (.unopenedParen 3)) ∧
    tokensFn ['(', '1', 'd', '4', 'd', '2'] = some (.error (.unclosedParen 0)) := by
  refine ⟨?_, ?_, fun o1 o2 h => PErr.noConfusion h, rfl, rfl⟩
  · intro s h
    unfold tokensFn
    rw [if_pos h]
  · intro s h
    unfold tokensFn
    rw [if_neg (by omega), if_pos h]

/-- C8 (witness): the pre-check applied to `"(1"`. -/
theorem c8_paren_count_precheck_witness :
    tokensFn ['(', '1'] = some (.error (.unclosedParen (pyFindIdx ['(', '1'] '('))) :=
  c8_paren_count_precheck.1 ['(', '1'] (by decide)


/-! ## C9 -/

theorem cloneVisit_zero (a : Arena) (i : ℕ) : cloneVisit 0 a i = (a, none) := rfl

theorem cloneVisit_succ_none (fuel : ℕ) (a : Arena) (i : ℕ) (h : a.get? i = none) :
    cloneVisit (fuel + 1) a i = (a, none) := by
  rw [cloneVisit, h]

theorem cloneVisit_succ_some (fuel : ℕ) (a : Arena) (i : ℕ) (nd : HNode)
    (h : a.get? i = some nd) (a1 : Arena) (l' : Option ℕ) (a2 : Arena) (r' : Option ℕ)
    (hL : (match nd.left with
           | none => (a, none)
           | some j => cloneVisit fuel a j) = (a1, l'))
    (hR : (match nd.right with
           | none => (a1, none)
           | some j => cloneVisit fuel a1 j) = (a2, r')) :
    cloneVisit (fuel + 1) a i =
      (a2 ++ [{ payload := nd.payload, left := l', right := r', value := nd.value }],
        some a2.length) := by
  rw [cloneVisit, h]
  dsimp only []
  rw [hL]
  dsimp only []
  rw [hR]


theorem get?_append_big {α : Type} (l ext : List α) (idx : ℕ) (h : idx < l.length) :
    (l ++ ext).get? idx = l.get? idx :=
  List.get?_append h

theorem cloneVisit_spec : ∀ (fuel : ℕ) (a : Arena) (i : ℕ),
    ∃ ext r', cloneVisit fuel a i = (a ++ ext, r') ∧
      (∀ idx nd, a.length ≤ idx → (a ++ ext).get? idx = some nd →
        (∀ j ∈ nd.left, a.length ≤ j) ∧ (∀ j ∈ nd.right, a.length ≤ j)) ∧
      (∀ n ∈ r', a.length ≤ n ∧ n < a.length + ext.length) := by
  intro fuel
  induction fuel with
  | zero =>
    intro a i
    refine ⟨[], none, by simp [cloneVisit_zero], ?_, by simp⟩
    intro idx nd hge hnd
    simp only [List.append_nil] at hnd
    obtain ⟨hlt, -⟩ := List.get?_eq_some.1 hnd
    omega
  | succ fuel ih =>
    intro a i
    cases hget : a.get? i with
    | none =>
      refine ⟨[], none, by simp [cloneVisit_succ_none fuel a i hget], ?_, by simp⟩
      intro idx nd hge hnd
      simp only [List.append_nil] at hnd
      obtain ⟨hlt, -⟩ := List.get?_eq_some.1 hnd
      omega
    | some nd =>
      -- left clone
      obtain ⟨ext1, l', heq1, hrc1, hb1⟩ :
          ∃ ext1 l', (match nd.left with
            | none => (a, none)
            | some j => cloneVisit fuel a j) = (a ++ ext1, l') ∧
            (∀ idx nd', a.length ≤ idx → (a ++ ext1).get? idx = some nd' →
              (∀ j ∈ nd'.left, a.length ≤ j) ∧ (∀ j ∈ nd'.right, a.length ≤ j)) ∧
            (∀ n ∈ l', a.length ≤ n ∧ n < a.length + ext1.length) := by
        cases hL : nd.left with
        | none =>
          refine ⟨[], none, by simp, ?_, by simp⟩
          intro idx nd' hge hnd
          simp only [List.append_nil] at hnd
          obtain ⟨hlt, -⟩ := List.get?_eq_some.1 hnd
          omega
        | some j =>
          obtain ⟨ext1, l', heq, hrc, hb⟩ := ih a j
          exact ⟨ext1, l', by simp [heq], hrc, hb⟩
      -- right clone, from the extended arena
      obtain ⟨ext2, r', heq2, hrc2, hb2⟩ :
          ∃ ext2 r', (match nd.right with
            | none => (a ++ ext1, none)
            | some j => cloneVisit fuel (a ++ ext1) j) = ((a ++ ext1) ++ ext2, r') ∧
            (∀ idx nd', (a ++ ext1).length ≤ idx → ((a ++ ext1) ++ ext2).get? idx = some nd' →
              (∀ j ∈ nd'.left, (a ++ ext1).length ≤ j) ∧
                (∀ j ∈ nd'.right, (a ++ ext1).length ≤ j)) ∧
            (∀ n ∈ r', (a ++ ext1).length ≤ n ∧ n < (a ++ ext1).length + ext2.length) := by
        cases hR : nd.right with
        | none =>
          refine ⟨[], none, by simp, ?_, by simp⟩
          intro idx nd' hge hnd
          simp only [List.append_nil] at hnd
          obtain ⟨hlt, -⟩ := List.get?_eq_some.1 hnd
          omega
        | some j =>
          obtain ⟨ext2, r', heq, hrc, hb⟩ := ih (a ++ ext1) j
          exact ⟨ext2, r', by simp [heq], hrc, hb⟩
      have hmain := cloneVisit_succ_some fuel a i nd hget (a ++ ext1) l'
        ((a ++ ext1) ++ ext2) r' heq1 (by rw [heq2])
      set node : HNode :=
        { payload := nd.payload, left := l', right := r', value := nd.value } with hnode
      refine ⟨ext1 ++ ext2 ++ [node], some ((a ++ ext1) ++ ext2).length, ?_, ?_, ?_⟩
      · rw [hmain]
        simp [List.append_assoc]
      · intro idx nd' hge hnd
        have hfull : a ++ (ext1 ++ ext2 ++ [node]) = ((a ++ ext1) ++ ext2) ++ [node] := by
          simp [List.append_assoc]
        rw [hfull] at hnd
        by_cases hidx : idx < ((a ++ ext1) ++ ext2).length
        · rw [List.get?_append hidx] at hnd
          by_cases hidx1 : idx < (a ++ ext1).length
          · rw [List.get?_append hidx1] at hnd
            exact hrc1 idx nd' hge hnd
          · have := hrc2 idx nd' (by omega) (by rw [List.get?_append_right (by omega)] at hnd ⊢; exact hnd)
            constructor
            · intro j hj
              have := this.1 j hj
              simp only [List.length_append] at this ⊢
              omega
            · intro j hj
              have := this.2 j hj
              simp only [List.length_append] at this ⊢
              omega
        · have hlen : idx = ((a ++ ext1) ++ ext2).length := by
            obtain ⟨hlt, -⟩ := List.get?_eq_some.1 hnd
            simp only [List.length_append] at hlt hidx ⊢
            simp only [List.length_append, List.length_cons, List.length_nil] at hlt
            omega
          rw [List.get?_append_right (by omega), hlen] at hnd
          simp only [Nat.sub_self] at hnd
          injection hnd with hnd
          subst hnd
          constructor
          · intro j hj
            exact (hb1 j (by simpa [hnode] using hj)).1
          · intro j hj
            have := hb2 j (by simpa [hnode] using hj)
            simp only [List.length_append] at this
            omega
      · intro n hn
        simp only [Option.mem_def, Option.some.injEq] at hn
        subst hn
        simp only [List.length_append, List.length_cons, List.length_nil]
        omega


theorem critifyVisit_zero (a : Arena) (i : ℕ) : critifyVisit 0 a i = a := rfl

theorem critifyVisit_succ_none (fuel : ℕ) (a : Arena) (i : ℕ) (h : a.get? i = none) :
    critifyVisit (fuel + 1) a i = a := by
  rw [critifyVisit, h]

theorem regionClosed_set (a : Arena) (k i : ℕ) (nd nd' : HNode)
    (hrc : RegionClosed a k) (hget : a.get? i = some nd)
    (hchild : nd'.left = nd.left ∧ nd'.right = nd.right) :
    RegionClosed (a.set i nd') k := by
  intro idx m hge hm
  by_cases hidx : i = idx
  · subst hidx
    rw [List.get?_set_eq, hget] at hm
    simp only [Option.map_eq_map, Option.map_some] at hm
    injection hm with hm
    subst hm
    rw [hchild.1, hchild.2]
    exact hrc i nd hge hget
  · rw [List.get?_set_ne _ _ hidx] at hm
    exact hrc idx m hge hm

theorem critifyVisit_frame : ∀ (fuel : ℕ) (a : Arena) (k i : ℕ), k ≤ i →
    RegionClosed a k →
    (∀ j, j < k → (critifyVisit fuel a i).get? j = a.get? j) ∧
      RegionClosed (critifyVisit fuel a i) k := by
  intro fuel
  induction fuel with
  | zero => exact fun a k i hki hrc => ⟨fun j hj => by rw [critifyVisit_zero], by
      rw [critifyVisit_zero]; exact hrc⟩
  | succ fuel ih =>
    intro a k i hki hrc
    cases hget : a.get? i with
    | none =>
      rw [critifyVisit_succ_none fuel a i hget]
      exact ⟨fun j hj => rfl, hrc⟩
    | some nd =>
      have hset : RegionClosed (a.set i { nd with payload := critPayload nd.payload }) k :=
        regionClosed_set a k i nd _ hrc hget ⟨rfl, rfl⟩
      have hsetj : ∀ j, j < k →
          (a.set i { nd with payload := critPayload nd.payload }).get? j = a.get? j :=
        fun j hj => List.get?_set_ne _ _ (by omega)
      have hchild := hrc i nd hki hget
      cases hL : nd.left with
      | none =>
        cases hR : nd.right with
        | none =>
          simp only [critifyVisit, hget, hL, hR]
          rw [hL, hR] at hset hsetj
          exact ⟨hsetj, hset⟩
        | some jr =>
          simp only [critifyVisit, hget, hL, hR]
          rw [hL, hR] at hset hsetj
          obtain ⟨hj1, hrc1⟩ := ih _ k jr (hchild.2 jr (by simp [hR])) hset
          exact ⟨fun j hj => (hj1 j hj).trans (hsetj j hj), hrc1⟩
      | some jl =>
        cases hR : nd.right with
        | none =>
          simp only [critifyVisit, hget, hL, hR]
          rw [hL, hR] at hset hsetj
          obtain ⟨hj1, hrc1⟩ := ih _ k jl (hchild.1 jl (by simp [hL])) hset
          exact ⟨fun j hj => (hj1 j hj).trans (hsetj j hj), hrc1⟩
        | some jr =>
          simp only [critifyVisit, hget, hL, hR]
          rw [hL, hR] at hset hsetj
          obtain ⟨hj1, hrc1⟩ := ih _ k jl (hchild.1 jl (by simp [hL])) hset
          obtain ⟨hj2, hrc2⟩ := ih _ k jr (hchild.2 jr (by simp [hR])) hrc1
          exact ⟨fun j hj => (hj2 j hj).trans ((hj1 j hj).trans (hsetj j hj)), hrc2⟩


/-- C9 (counterexample): `EvalTree(t)` shares `t`'s nodes - `critify` on
the tree constructed from `t` rewrites the `d` payload of `t`'s own root
node (index 2 of the arena). -/
theorem c9_counterexample_init_aliases :
    initFromTree heapArena (some 2) = (heapArena, some 2) ∧
    ((critifyH (initFromTree heapArena (some 2)).1
        (initFromTree heapArena (some 2)).2).get? 2).map HNode.payload =
      some (.op .dc) ∧
    (heapArena.get? 2).map HNode.payload = some (.op .d) ∧
    Payload.op .dc ≠ Payload.op .d :=
  ⟨rfl, rfl, rfl, by simp⟩

/-- C9 (amended): constructing an `EvalTree` from an existing `EvalTree`
does *not* copy - `self.root = source.root` shares the nodes, so
transforming the new tree mutates `t`'s nodes; an independent deep copy
is what `EvalTree.copy()` provides: the clone lives in freshly allocated
nodes, so `critify` applied through the copy leaves every node of the
original arena unchanged. -/
theorem c9_init_aliases_copy_isolates :
    (∀ (a : Arena) (root : Option ℕ), initFromTree a root = (a, root)) ∧
    (∀ (a : Arena) (root : Option ℕ) (i : ℕ), i < a.length →
      (critifyH (copyH a root).1 (copyH a root).2).get? i = a.get? i) := by
  refine ⟨fun a root => rfl, ?_⟩
  intro a root i hi
  cases root with
  | none => rfl
  | some r =>
    obtain ⟨ext, r', heq, hrc, hb⟩ := cloneVisit_spec (r + 1) a r
    have hcopy : copyH a (some r) = (a ++ ext, r') := by rw [copyH, heq]
    rw [hcopy]
    cases r' with
    | none =>
      show (a ++ ext).get? i = a.get? i
      exact List.get?_append hi
    | some n =>
      obtain ⟨hn1, hn2⟩ := hb n (by simp)
      have hframe := (critifyVisit_frame (n + 1) (a ++ ext) a.length n hn1 hrc).1 i hi
      show (critifyVisit (n + 1) (a ++ ext) n).get? i = a.get? i
      rw [hframe]
      exact List.get?_append hi

/-- C9 (witness): in the `1d4` arena, node 0 is untouched by critifying
the copy. -/
theorem c9_init_aliases_copy_isolates_witness :
    (critifyH (copyH heapArena (some 2)).1 (copyH heapArena (some 2)).2).get? 0 =
      heapArena.get? 0 :=
  c9_init_aliases_copy_isolates.2 heapArena (some 2) 0 (by decide)


/-! ## C3: unary-sign recognition lemmas -/

theorem opFromCode_code (code : List Char) (o : OpCode) (h : opFromCode code = some o) :
    codeChars o = code := by
  have := List.find?_some h
  exact of_decide_eq_true this

theorem opFromCode_nil : opFromCode [] = none := by decide

theorem opFromCode_bang : opFromCode ['!'] = some .fact := by decide

theorem goodBin_of_contains : ∀ o : OpCode, binaryCodes.contains (codeChars o) = true →
    GoodBin o := by
  intro o
  unfold GoodBin
  cases o <;> decide

theorem goodDie_of_contains : ∀ o : OpCode, dieCodes.contains (codeChars o) = true →
    GoodDie o := by
  intro o
  unfold GoodDie
  cases o <;> decide

theorem goodBin_of_starter (o : OpCode) (c : Char) (hcode : codeChars o = [c])
    (hc : binaryStarters.contains c = true) : GoodBin o := by
  by_contra hbad
  simp only [GoodBin, List.mem_cons, List.not_mem_nil, or_false, not_not] at hbad
  rcases hbad with h | h | h | h | h | h | h <;> subst h <;>
    (injection hcode with h1 h2; subst h1; exact absurd hc (by decide))

theorem mem_of_containsTK {l : List TKind} {a : TKind} (h : l.contains a = true) :
    a ∈ l := by
  simpa using h

theorem collect_spec {k : TKind} {agg : List Char} {i : ℕ} {t : Option Collected}
    (hok : AggOK k agg) (h : collectK k agg i = .ok t) : EmitOK k t := by
  cases k with
  | integer =>
    injection h with h
    exact ⟨digitsToInt agg, h.symm⟩
  | binary =>
    rw [collectK] at h
    cases hop : opFromCode agg with
    | none => rw [hop] at h; exact (Except.noConfusion h)
    | some o =>
      rw [hop] at h
      injection h with h
      refine ⟨o, h.symm, ?_⟩
      rcases hok with hnil | hcon | ⟨c, hc, hst⟩
      · subst hnil; rw [opFromCode_nil] at hop; exact (Option.noConfusion hop)
      · rw [← opFromCode_code agg o hop] at hcon
        exact goodBin_of_contains o hcon
      · exact goodBin_of_starter o c (hc ▸ opFromCode_code agg o hop) hst
  | die =>
    rw [collectK] at h
    cases hop : opFromCode agg with
    | none => rw [hop] at h; exact (Except.noConfusion h)
    | some o =>
      rw [hop] at h
      injection h with h
      refine ⟨o, h.symm, ?_⟩
      rcases hok with hnil | hcon
      · subst hnil; rw [opFromCode_nil] at hop; exact (Option.noConfusion hop)
      · rw [← opFromCode_code agg o hop] at hcon
        exact goodDie_of_contains o hcon
  | unaryPost =>
    rw [collectK] at h
    cases hop : opFromCode agg with
    | none => rw [hop] at h; exact (Except.noConfusion h)
    | some o =>
      rw [hop] at h
      injection h with h
      rcases hok with hnil | hbang
      · subst hnil; rw [opFromCode_nil] at hop; exact (Option.noConfusion hop)
      · subst hbang
        rw [opFromCode_bang] at hop
        injection hop with hop
        rw [← h, ← hop]
        rfl
  | unarySign =>
    rw [collectK.eq_def] at h
    dsimp only at h
    split at h
    · injection h with h; exact Or.inr (Or.inl h.symm)
    · injection h with h; exact Or.inr (Or.inr h.symm)
    · injection h with h; exact Or.inl h.symm
  | fudge =>
    injection h with h
    exact ⟨[-1, 0, 1], h.symm⟩
  | openParen => injection h with h; exact h.symm
  | closeParen => injection h with h; exact h.symm
  | listValue =>
    rw [collectK] at h
    cases hp : parseFloatChars agg with
    | none => rw [hp] at h; exact (Except.noConfusion h)
    | some q =>
      rw [hp] at h
      injection h with h
      exact Or.inr ⟨q, h.symm⟩
  | listTok =>
    injection h with h
    exact Or.inl h.symm
  | inputStart => injection h with h; exact h.symm
  | inputEnd => injection h with h; exact h.symm
  | exprStart => injection h with h; exact h.symm
  | exprEnd => injection h with h; exact h.symm
  | listStart => injection h with h; exact h.symm
  | listSep => injection h with h; exact h.symm
  | listEnd => injection h with h; exact h.symm

theorem aggOK_of_inv {expr : List Char} {k : TKind} {i : ℕ} {agg : List Char}
    (h : AggInv expr k i agg) : AggOK k agg := by
  cases k <;> try trivial
  · rcases h with ⟨hnil, -⟩ | hcon | hst
    · exact Or.inl hnil
    · exact Or.inr (Or.inl hcon)
    · exact Or.inr (Or.inr hst)
  · rcases h with ⟨hnil, -⟩ | hcon
    · exact Or.inl hnil
    · exact Or.inr hcon
  · rcases h with ⟨hnil, -⟩ | hbang
    · exact Or.inl hnil
    · exact Or.inr hbang

theorem aggInv_nil {expr : List Char} {k : TKind} {i : ℕ}
    (h : StarterOut expr k i) : AggInv expr k i [] := by
  cases k <;> try trivial
  · obtain ⟨hlt, hst⟩ := h (Or.inl rfl)
    exact Or.inl ⟨rfl, hlt, hst⟩
  · obtain ⟨hlt, hst⟩ := h (Or.inr (Or.inr rfl))
    exact Or.inl ⟨rfl, hlt, eq_of_beq hst⟩
  · obtain ⟨hlt, hst⟩ := h (Or.inr (Or.inl rfl))
    exact Or.inl ⟨rfl, hlt, eq_of_beq hst⟩

theorem followerAt_spec {k k' : TKind} {c : Char} {i i' : ℕ}
    (h : followerAt k c i = some (k', i')) :
    k' ∈ followersOf k ∧ startersOf k' c = true ∧ i' = i := by
  unfold followerAt at h
  cases hf : (followersOf k).find? fun x => startersOf x c with
  | none => rw [hf] at h; exact (Option.noConfusion h)
  | some a =>
    rw [hf] at h
    injection h with h
    injection h with h1 h2
    subst h1
    have hp := List.find?_some hf
    exact ⟨List.mem_of_find?_eq_some hf, hp, h2.symm⟩

theorem ifFollower_spec {kk : TKind} {c : Char} {i : ℕ} {k' : TKind} {i' : ℕ} {b : Bool}
    (h : (if b = true then (Except.ok none : Except PErr (Option (TKind × ℕ)))
          else match followerAt kk c i with
               | some f => .ok (some f)
               | none => .error (.illegalChar i)) = .ok (some (k', i'))) :
    k' ∈ followersOf kk ∧ startersOf k' c = true ∧ i' = i := by
  by_cases hb : b = true
  · rw [if_pos hb] at h
    injection h with h
    exact (Option.noConfusion h)
  · rw [if_neg hb] at h
    cases hf : followerAt kk c i with
    | none => rw [hf] at h; exact (Except.noConfusion h)
    | some f =>
      obtain ⟨fk, fi⟩ := f
      rw [hf] at h
      injection h with h
      injection h with h
      injection h with h1 h2
      subst h1
      subst h2
      exact followerAt_spec hf

theorem nextState_spec {k : TKind} {i : ℕ} {c : Char} {agg : List Char} {k' : TKind} {i' : ℕ}
    (h : nextState k i c agg = .ok (some (k', i'))) :
    k' ∈ followersOf k ∧ (needStarter k' → startersOf k' c = true ∧ i' = i) := by
  rw [nextState.eq_def] at h
  cases k <;> dsimp only at h <;>
    first
      | (injection h with h
         injection h with h
         injection h with h1 h2
         subst h1
         subst h2
         exact ⟨by decide, fun hns => absurd hns (by unfold needStarter; decide)⟩)
      | (split at h
         · exact absurd (Except.ok.inj h) (by simp)
         · split at h
           · rename_i f hf
             injection h with h
             injection h with h
             subst h
             exact ⟨(followerAt_spec hf).1, fun _ =>
               ⟨(followerAt_spec hf).2.1, (followerAt_spec hf).2.2⟩⟩
           · exact (Except.noConfusion h))

theorem endOfInput_spec {expr : List Char} {k : TKind} {agg : List Char} {i : ℕ}
    {t : Option Collected} {k' : TKind} {i' : ℕ}
    (hok : AggOK k agg) (h : endOfInput k agg i = .ok (t, k', i')) :
    EmitOK k t ∧ k' ∈ followersOf k ∧ StarterOut expr k' i' := by
  unfold endOfInput at h
  by_cases hc : (followersOf k).contains .inputEnd = true
  · rw [if_pos hc] at h
    cases hcol : collectK k agg i with
    | error e => rw [hcol] at h; exact (Except.noConfusion h)
    | ok t0 =>
      rw [hcol] at h
      injection h with h
      injection h with h1 hrest
      injection hrest with h2 h3
      subst h1
      subst h2
      subst h3
      exact ⟨collect_spec hok hcol, mem_of_containsTK hc,
        fun hns => absurd hns (by unfold needStarter; decide)⟩
  · rw [if_neg hc] at h
    exact (Except.noConfusion h)

theorem aggInv_step {expr : List Char} {k : TKind} {i : ℕ} {agg : List Char}
    (hinv : AggInv expr k i agg) (hlt : i < expr.length)
    (h : nextState k i (expr.get ⟨i, hlt⟩) agg = .ok none) :
    AggInv expr k (i + 1) (agg ++ [expr.get ⟨i, hlt⟩]) := by
  cases k <;> try trivial
  · -- Binary: aggregation happens only while the code set matches or at entry
    rw [nextState.eq_def] at h
    dsimp only at h
    split at h
    · rename_i hcond
      rcases Bool.or_eq_true_iff.mp hcond with hcon | hemp
      · exact Or.inr (Or.inl hcon)
      · have hnil : agg = [] := by simpa using hemp
        subst hnil
        rcases hinv with ⟨-, hw, hst⟩ | hcon | ⟨c, hc, -⟩
        · exact Or.inr (Or.inr ⟨expr.get ⟨i, hlt⟩, rfl, hst⟩)
        · exact absurd hcon (by decide)
        · exact absurd hc (by simp)
    · exfalso
      split at h
      · injection h with h; exact (Option.noConfusion h)
      · exact (Except.noConfusion h)
  · -- UnarySuffix: only a single '!' can aggregate
    rw [nextState.eq_def] at h
    dsimp only at h
    split at h
    · rename_i hcond
      obtain ⟨hlen, hst⟩ := Bool.and_eq_true_iff.mp hcond
      have hnil : agg = [] := List.length_eq_zero.mp (by
        have := of_decide_eq_true hlen
        simpa [consumesOf] using this)
      subst hnil
      have hc : expr.get ⟨i, hlt⟩ = '!' := eq_of_beq hst
      rw [hc]
      exact Or.inr rfl
    · exfalso
      split at h
      · injection h with h; exact (Option.noConfusion h)
      · exact (Except.noConfusion h)
  · -- Die: aggregation happens only while the code set matches or at entry
    rw [nextState.eq_def] at h
    dsimp only at h
    split at h
    · rename_i hcond
      rcases Bool.or_eq_true_iff.mp hcond with hcon | hemp
      · exact Or.inr hcon
      · have hnil : agg = [] := by simpa using hemp
        subst hnil
        rcases hinv with ⟨-, hw, hd⟩ | hcon
        · have hd' : expr.get ⟨i, hlt⟩ = 'd' := hd
          rw [hd']
          exact Or.inr (by decide)
        · exact absurd hcon (by decide)
    · exfalso
      split at h
      · injection h with h; exact (Option.noConfusion h)
      · exact (Except.noConfusion h)

theorem runG_spec (expr : List Char) : ∀ (fuel : ℕ) (k : TKind) (i : ℕ) (agg : List Char)
    (t : Option Collected) (k' : TKind) (i' : ℕ),
    AggInv expr k i agg → runG expr fuel k i agg = .ok (t, k', i') →
    EmitOK k t ∧ k' ∈ followersOf k ∧ StarterOut expr k' i' := by
  intro fuel
  induction fuel with
  | zero =>
    intro k i agg t k' i' _ h
    exact (Except.noConfusion h)
  | succ fuel ih =>
    intro k i agg t k' i' hinv h
    rw [runG] at h
    split at h
    · rename_i hlt
      dsimp only at h
      split at h
      · exact (Except.noConfusion h)
      · rename_i hrec
        split at h
        · rename_i hsp
          split at h
          · rename_i hj
            split at h
            · exact (Except.noConfusion h)
            · exact (Except.noConfusion h)
            · rename_i k0 i0 hnext
              split at h
              · exact (Except.noConfusion h)
              · rename_i t0 hcol
                injection h with h
                injection h with h1 h
                injection h with h2 h3
                subst h1
                subst h2
                subst h3
                refine ⟨collect_spec (aggOK_of_inv hinv) hcol, (nextState_spec hnext).1, ?_⟩
                intro hstar
                obtain ⟨hst, hieq⟩ := (nextState_spec hnext).2 hstar
                subst hieq
                exact ⟨hj, hst⟩
          · exact endOfInput_spec (aggOK_of_inv hinv) h
        · split at h
          · exact (Except.noConfusion h)
          · rename_i hnext
            exact ih k (i + 1) (agg ++ [expr.get ⟨i, hlt⟩]) t k' i'
              (aggInv_step hinv hlt hnext) h
          · rename_i k0 i0 hnext
            split at h
            · exact (Except.noConfusion h)
            · rename_i t0 hcol
              injection h with h
              injection h with h1 h
              injection h with h2 h3
              subst h1
              subst h2
              subst h3
              refine ⟨collect_spec (aggOK_of_inv hinv) hcol, (nextState_spec hnext).1, ?_⟩
              intro hstar
              obtain ⟨hst, hieq⟩ := (nextState_spec hnext).2 hstar
              subst hieq
              exact ⟨hlt, hst⟩
    · exact endOfInput_spec (aggOK_of_inv hinv) h

theorem stateRun_spec {expr : List Char} {k : TKind} {i : ℕ} {t : Option Collected}
    {k' : TKind} {i' : ℕ} (hstart : StarterOut expr k i)
    (h : stateRun expr k i = .ok (t, k', i')) :
    EmitOK k t ∧ k' ∈ followersOf k ∧ StarterOut expr k' i' := by
  unfold stateRun at h
  by_cases hk : k = .listTok
  · rw [if_pos hk] at h
    subst hk
    cases hld : listDrive expr (expr.length + 2) .listStart i [] with
    | none => rw [hld] at h; exact (Except.noConfusion h)
    | some r =>
      rw [hld] at h
      cases r with
      | error e => exact (Except.noConfusion h)
      | ok p =>
        obtain ⟨sides, j⟩ := p
        injection h with h
        injection h with h1 hrest
        injection hrest with h2 h3
        subst h1
        subst h2
        subst h3
        exact ⟨Or.inr ⟨sides, rfl⟩, by decide,
          fun hns => absurd hns (by unfold needStarter; decide)⟩
  · rw [if_neg hk] at h
    exact runG_spec expr (expr.length + 1 - i) k i [] t k' i' (aggInv_nil hstart) h

theorem lastTok_get? (l : List Token) : l.getLast? = l.get? (l.length - 1) := by
  rw [List.getLast?_eq_getElem?, List.get?_eq_getElem?]

theorem propok_append {acc : List Token} {tk : Token} (h : PropOK acc)
    (hu : (tk = .op .p ∨ tk = .op .m) → unaryPosition acc.getLast?)
    (hb : (tk = .op .add ∨ tk = .op .sub) → binaryPosition acc.getLast?) :
    PropOK (acc ++ [tk]) := by
  intro j tk' hget
  rcases lt_trichotomy j acc.length with hlt | heq | hgt
  · have hget' : acc.get? j = some tk' := by
      rw [List.get?_append hlt] at hget
      exact hget
    have hh := h j tk' hget'
    refine ⟨fun hsig => ?_, fun hbin => ?_⟩
    · have h1 := hh.1 hsig
      by_cases hj0 : j = 0
      · rw [if_pos hj0]
        rw [if_pos hj0] at h1
        exact h1
      · rw [if_neg hj0]
        rw [if_neg hj0] at h1
        rw [List.get?_append (show j - 1 < acc.length by omega)]
        exact h1
    · obtain ⟨hj0, h2⟩ := hh.2 hbin
      refine ⟨hj0, ?_⟩
      rw [List.get?_append (show j - 1 < acc.length by omega)]
      exact h2
  · subst heq
    have hgettk : (acc ++ [tk]).get? acc.length = some tk := by
      rw [List.get?_append_right (le_refl _)]
      simp
    have htk : tk' = tk := by
      rw [hgettk] at hget
      injection hget with hget
      exact hget.symm
    subst htk
    refine ⟨fun hsig => ?_, fun hbin => ?_⟩
    · have hu' := hu hsig
      by_cases hj0 : acc.length = 0
      · rw [if_pos hj0]
        have hnil : acc = [] := List.length_eq_zero.mp hj0
        rw [hnil] at hu'
        exact hu'
      · rw [if_neg hj0]
        rw [List.get?_append (show acc.length - 1 < acc.length by omega)]
        rw [← lastTok_get?]
        exact hu hsig
    · have hb' := hb hbin
      have hne : acc ≠ [] := by
        intro hnil
        rw [hnil] at hb'
        simp [binaryPosition] at hb'
      have hpos : 0 < acc.length := List.length_pos.mpr hne
      refine ⟨by omega, ?_⟩
      rw [List.get?_append (show acc.length - 1 < acc.length by omega)]
      rw [← lastTok_get?]
      exact hb'
  · exfalso
    rw [List.get?_append_right (by omega)] at hget
    obtain ⟨m, hm⟩ : ∃ m, j - acc.length = m + 1 := ⟨j - acc.length - 1, by omega⟩
    rw [hm] at hget
    simp at hget

theorem step_preserves {k k' : TKind} {t : Option Collected} {acc : List Token}
    (hne : k ≠ .listTok) (hlink : StateLink k acc.getLast?) (hprop : PropOK acc)
    (hemit : EmitOK k t) (hfol : k' ∈ followersOf k) :
    StateLink k' (accAfter t acc).getLast? ∧ PropOK (accAfter t acc) := by
  cases k with
  | inputStart =>
    rw [show t = none from hemit]
    simp only [followersOf, List.mem_cons, List.not_mem_nil, or_false] at hfol
    rcases hfol with rfl | rfl
    · exact ⟨Or.inl hlink, hprop⟩
    · exact ⟨trivial, hprop⟩
  | inputEnd => exact absurd hfol (by simp [followersOf])
  | exprStart =>
    rw [show t = none from hemit]
    simp only [followersOf, List.mem_cons, List.not_mem_nil, or_false] at hfol
    rcases hfol with rfl | rfl | rfl
    · exact ⟨trivial, hprop⟩
    · exact ⟨hlink, hprop⟩
    · exact ⟨trivial, hprop⟩
  | exprEnd =>
    rw [show t = none from hemit]
    simp only [followersOf, List.mem_cons, List.not_mem_nil, or_false] at hfol
    rcases hfol with rfl | rfl | rfl | rfl | rfl
    · exact ⟨trivial, hprop⟩
    · exact ⟨hlink, hprop⟩
    · exact ⟨trivial, hprop⟩
    · exact ⟨trivial, hprop⟩
    · exact ⟨trivial, hprop⟩
  | integer =>
    obtain ⟨n, rfl⟩ := hemit
    have hpr : PropOK (acc ++ [Token.int n]) :=
      propok_append hprop
        (fun hc => absurd hc (by rintro (hx | hx) <;> exact Token.noConfusion hx))
        (fun hc => absurd hc (by rintro (hx | hx) <;> exact Token.noConfusion hx))
    simp only [followersOf, List.mem_cons, List.not_mem_nil, or_false] at hfol
    rcases hfol with rfl | rfl
    · refine ⟨?_, hpr⟩
      show binaryPosition ((acc ++ [Token.int n]).getLast?)
      rw [List.getLast?_concat]
      exact Or.inl ⟨n, rfl⟩
    · exact ⟨trivial, hpr⟩
  | binary =>
    obtain ⟨o, rfl, hgood⟩ := hemit
    simp only [GoodBin, List.mem_cons, List.not_mem_nil, or_false, not_or] at hgood
    have hpr : PropOK (acc ++ [Token.op o]) :=
      propok_append hprop
        (fun hc => by
          exfalso
          rcases hc with hx | hx <;> injection hx with hx
          · exact hgood.2.2.2.2.2.1 hx
          · exact hgood.2.2.2.2.2.2 hx)
        (fun _ => hlink)
    simp only [followersOf, List.mem_cons, List.not_mem_nil, or_false] at hfol
    subst hfol
    refine ⟨?_, hpr⟩
    show unaryPosition ((acc ++ [Token.op o]).getLast?)
    rw [List.getLast?_concat]
    refine Or.inr (Or.inr ⟨o, rfl, hgood.1, ?_⟩)
    simp only [List.mem_cons, List.not_mem_nil, or_false, not_or]
    exact ⟨hgood.2.1, hgood.2.2.1, hgood.2.2.2.1, hgood.2.2.2.2.1⟩
  | unarySign =>
    simp only [followersOf, List.mem_cons, List.not_mem_nil, or_false] at hfol
    subst hfol
    rcases hemit with rfl | rfl | rfl
    · exact ⟨hlink, hprop⟩
    · refine ⟨?_, propok_append hprop (fun _ => hlink) (fun hc => by
        exfalso
        rcases hc with hx | hx <;> injection hx with hx <;> exact absurd hx (by decide))⟩
      show unaryPosition ((acc ++ [Token.op .p]).getLast?)
      rw [List.getLast?_concat]
      exact Or.inr (Or.inr ⟨.p, rfl, by decide, by decide⟩)
    · refine ⟨?_, propok_append hprop (fun _ => hlink) (fun hc => by
        exfalso
        rcases hc with hx | hx <;> injection hx with hx <;> exact absurd hx (by decide))⟩
      show unaryPosition ((acc ++ [Token.op .m]).getLast?)
      rw [List.getLast?_concat]
      exact Or.inr (Or.inr ⟨.m, rfl, by decide, by decide⟩)
  | unaryPost =>
    rw [show t = some (.tok (.op .fact)) from hemit]
    have hpr : PropOK (acc ++ [Token.op .fact]) :=
      propok_append hprop
        (fun hc => by
          exfalso
          rcases hc with hx | hx <;> injection hx with hx <;> exact absurd hx (by decide))
        (fun hc => by
          exfalso
          rcases hc with hx | hx <;> injection hx with hx <;> exact absurd hx (by decide))
    simp only [followersOf, List.mem_cons, List.not_mem_nil, or_false] at hfol
    rcases hfol with rfl | rfl
    · refine ⟨?_, hpr⟩
      show binaryPosition ((acc ++ [Token.op .fact]).getLast?)
      rw [List.getLast?_concat]
      exact Or.inr (Or.inr (Or.inr rfl))
    · exact ⟨trivial, hpr⟩
  | die =>
    obtain ⟨o, rfl, hgdie⟩ := hemit
    have hpr : PropOK (acc ++ [Token.op o]) :=
      propok_append hprop
        (fun hc => by
          exfalso
          rcases hc with hx | hx <;> injection hx with hx <;> subst hx <;>
            exact absurd hgdie (by unfold GoodDie; decide))
        (fun hc => by
          exfalso
          rcases hc with hx | hx <;> injection hx with hx <;> subst hx <;>
            exact absurd hgdie (by unfold GoodDie; decide))
    simp only [followersOf, List.mem_cons, List.not_mem_nil, or_false] at hfol
    rcases hfol with rfl | rfl | rfl | rfl
    · exact ⟨trivial, hpr⟩
    · exact ⟨trivial, hpr⟩
    · exact ⟨trivial, hpr⟩
    · exact ⟨trivial, hpr⟩
  | fudge =>
    obtain ⟨l, rfl⟩ := hemit
    have hpr : PropOK (acc ++ [Token.tup l]) :=
      propok_append hprop
        (fun hc => absurd hc (by rintro (hx | hx) <;> exact Token.noConfusion hx))
        (fun hc => absurd hc (by rintro (hx | hx) <;> exact Token.noConfusion hx))
    simp only [followersOf, List.mem_cons, List.not_mem_nil, or_false] at hfol
    rcases hfol with rfl | rfl
    · refine ⟨?_, hpr⟩
      show binaryPosition ((acc ++ [Token.tup l]).getLast?)
      rw [List.getLast?_concat]
      exact Or.inr (Or.inl ⟨l, rfl⟩)
    · exact ⟨trivial, hpr⟩
  | listTok => exact absurd rfl hne
  | listStart => exact hlink.elim
  | listValue => exact hlink.elim
  | listSep => exact hlink.elim
  | listEnd => exact hlink.elim
  | openParen =>
    rw [show t = some (.tok .lparen) from hemit]
    have hpr : PropOK (acc ++ [Token.lparen]) :=
      propok_append hprop
        (fun hc => absurd hc (by rintro (hx | hx) <;> exact Token.noConfusion hx))
        (fun hc => absurd hc (by rintro (hx | hx) <;> exact Token.noConfusion hx))
    simp only [followersOf, List.mem_cons, List.not_mem_nil, or_false] at hfol
    subst hfol
    refine ⟨?_, hpr⟩
    show unaryPosition ((acc ++ [Token.lparen]).getLast?)
    rw [List.getLast?_concat]
    exact Or.inr (Or.inl rfl)
  | closeParen =>
    rw [show t = some (.tok .rparen) from hemit]
    have hpr : PropOK (acc ++ [Token.rparen]) :=
      propok_append hprop
        (fun hc => absurd hc (by rintro (hx | hx) <;> exact Token.noConfusion hx))
        (fun hc => absurd hc (by rintro (hx | hx) <;> exact Token.noConfusion hx))
    simp only [followersOf, List.mem_cons, List.not_mem_nil, or_false] at hfol
    rcases hfol with rfl | rfl
    · refine ⟨?_, hpr⟩
      show binaryPosition ((acc ++ [Token.rparen]).getLast?)
      rw [List.getLast?_concat]
      exact Or.inr (Or.inr (Or.inl rfl))
    · exact ⟨trivial, hpr⟩

theorem stateRun_listTok_shape {expr : List Char} {i : ℕ} {t : Option Collected}
    {k' : TKind} {i' : ℕ} (h : stateRun expr .listTok i = .ok (t, k', i')) :
    (∃ sides, t = some (.tok (.tup sides))) ∧ k' = .exprEnd := by
  unfold stateRun at h
  rw [if_pos rfl] at h
  cases hld : listDrive expr (expr.length + 2) .listStart i [] with
  | none => rw [hld] at h; exact (Except.noConfusion h)
  | some r =>
    rw [hld] at h
    cases r with
    | error e => exact (Except.noConfusion h)
    | ok p =>
      obtain ⟨sides, j⟩ := p
      injection h with h
      injection h with h1 hrest
      injection hrest with h2 h3
      exact ⟨⟨sides, h1.symm⟩, h2.symm⟩

theorem machineDrive_propok (expr : List Char) : ∀ (fuel : ℕ) (k : TKind) (i : ℕ)
    (acc ts : List Token),
    StateLink k acc.getLast? → PropOK acc → StarterOut expr k i →
    machineDrive expr fuel k i acc = some (.ok ts) → PropOK ts := by
  intro fuel
  induction fuel with
  | zero =>
    intro k i acc ts _ _ _ h
    exact (Option.noConfusion h)
  | succ fuel ih =>
    intro k i acc ts hlink hprop hstart h
    rw [machineDrive] at h
    by_cases hk : k = .inputEnd
    · rw [if_pos hk] at h
      injection h with h
      injection h with h
      subst h
      exact hprop
    · rw [if_neg hk] at h
      by_cases hlt : k = .listTok
      · subst hlt
        cases hsr : stateRun expr .listTok i with
        | error e =>
          rw [hsr] at h
          injection h with h
          exact (Except.noConfusion h)
        | ok tr =>
          obtain ⟨t, k', i'⟩ := tr
          rw [hsr] at h
          obtain ⟨⟨sides, rfl⟩, rfl⟩ := stateRun_listTok_shape hsr
          refine ih .exprEnd i' (acc ++ [.tup sides]) ts ?_ ?_ ?_ h
          · show binaryPosition ((acc ++ [Token.tup sides]).getLast?)
            rw [List.getLast?_concat]
            exact Or.inr (Or.inl ⟨sides, rfl⟩)
          · exact propok_append hprop
              (fun hc => absurd hc (by rintro (hx | hx) <;> exact Token.noConfusion hx))
              (fun hc => absurd hc (by rintro (hx | hx) <;> exact Token.noConfusion hx))
          · exact fun hns => absurd hns (by unfold needStarter; decide)
      · cases hsr : stateRun expr k i with
        | error e =>
          rw [hsr] at h
          injection h with h
          exact (Except.noConfusion h)
        | ok tr =>
          obtain ⟨t, k', i'⟩ := tr
          rw [hsr] at h
          obtain ⟨hemit, hfol, hstart'⟩ := stateRun_spec hstart hsr
          obtain ⟨hlink', hprop'⟩ := step_preserves hlt hlink hprop hemit hfol
          exact ih k' i' (accAfter t acc) ts hlink' hprop' hstart' h

/-- C3: in every successful tokenization, a unary sign token (`p`/`m`) is
emitted only in a unary position (start of input, after `(`, or after an
operator other than the postfix `!` and the die operators), and a binary
`+`/`-` token (`add`/`sub`) only in a binary position (after a value, a
`)`, or the postfix `!`); the claim's "immediately after another
operator" clause is corrected, since after `!` a sign is binary. -/
theorem c3_sign_positions (expr : List Char) (ts : List Token)
    (h : tokensFn expr = some (.ok ts)) : PropOK ts := by
  unfold tokensFn at h
  dsimp only at h
  split at h
  · injection h with h
    exact (Except.noConfusion h)
  · split at h
    · injection h with h
      exact (Except.noConfusion h)
    · exact machineDrive_propok expr (2 * expr.length + 4) .inputStart 0 [] ts rfl
        (fun j tk hget => absurd hget (by simp))
        (fun hns => absurd hns (by unfold needStarter; decide)) h

/-- C3 (counterexample): in `3!-2` the `-` appears immediately after the
postfix `!` operator token, which the spec's "immediately after another
operator" clause would make unary; the tokenizer emits the binary
subtraction operator instead (after `!` the machine is in `ExprEnd`,
whose follower for `-` is `Binary`), and the position after `!` is not a
unary position. -/
theorem c3_counterexample_sign_after_postfix :
    tokensFn ['3', '!', '-', '2'] =
      some (.ok [.int 3, .op .fact, .op .sub, .int 2]) ∧
    ¬ unaryPosition (some (Token.op .fact)) := by
  constructor
  · rfl
  · intro hu
    rcases hu with hu | hu | ⟨o, ho, hfact, -⟩
    · exact Option.noConfusion hu
    · injection hu with hu
      exact Token.noConfusion hu
    · injection ho with ho
      injection ho with ho
      exact hfact ho.symm

/-- C3 (witness): the claim's own example `2*-1d4` tokenizes with a unary
minus after the `*` operator, and the resulting list satisfies the sign
position property. -/
theorem c3_sign_positions_witness :
    tokensFn ['2', '*', '-', '1', 'd', '4'] =
      some (.ok [.int 2, .op .mul, .op .m, .int 1, .op .d, .int 4]) ∧
    PropOK [.int 2, .op .mul, .op .m, .int 1, .op .d, .int 4] :=
  ⟨rfl, c3_sign_positions ['2', '*', '-', '1', 'd', '4']
    [.int 2, .op .mul, .op .m, .int 1, .op .d, .int 4] rfl⟩

end Dndice
